import Mathlib

/-!
# multitail-logger: a verification development of `multitail/multitail.hpp`

The header keeps its state in function-local statics (`session_id::id`,
`make_path::inited`, `operator<<::open_terminal`, `block::map`) and acts on the
outside world through `std::system` and `std::ofstream`.  The embedding makes
that state explicit: every operation takes a `World` and returns the new one.

What the operating system answers (does `mkdir -p` succeed, does the file open,
does the flush reach the disk, which number does the random generator give) is
not in the header; it is passed to each call as an `Env`.
-/

namespace multitail

/-! ## Values that can be posted -/

/-- A value handed to `post`, with the form of the argument expression, which
decides the template argument: an `int` or a `std::string` given as a
temporary (`int`, `str`), as a modifiable variable (`int_ref`, `str_ref`, the
form used by the test drivers) or as a constant one (`int_cref`, `str_cref`),
and a string literal (`chars`). -/
inductive Value where
  | int (i : Int)
  | str (s : String)
  | int_ref (i : Int)
  | int_cref (i : Int)
  | str_ref (s : String)
  | str_cref (s : String)
  | chars (s : String)
deriving DecidableEq, Repr

/-- The type deduced for the template parameter `T` of `post(name, T&& value)`
and of the two `operator<<`: `int`, `int&`, `const int&`, `std::string`,
`std::string&`, `const std::string&`, and `const char (&)[n]`.  Each function
template of the header is instantiated once per deduced type. -/
inductive Ty where
  | int
  | str
  | int_ref
  | int_cref
  | str_ref
  | str_cref
  | chars (n : Nat)
deriving DecidableEq, Repr

/-- The deduced template argument of a posted value; a string literal is an
array of its characters and the terminating zero. -/
def Value.ty : Value → Ty
  | .int _ => Ty.int
  | .str _ => Ty.str
  | .int_ref _ => Ty.int_ref
  | .int_cref _ => Ty.int_cref
  | .str_ref _ => Ty.str_ref
  | .str_cref _ => Ty.str_cref
  | .chars s => Ty.chars (s.length + 1)

/-- The characters that `_s << x` inserts for `x`: decimal digits with a leading
minus sign for an integer, the characters themselves for a string. -/
def Value.text : Value → String
  | .int i => toString i
  | .str s => s
  | .int_ref i => toString i
  | .int_cref i => toString i
  | .str_ref s => s
  | .str_cref s => s
  | .chars s => s

/-! ## Objects of the header -/

/-- The part of `std::ofstream` the header relies on: the error state
(`static_cast<bool>(_s)` is `!fail`), the bytes inserted but not yet written to
the file (the put area of the file buffer), and the file position, which is
the number of bytes written through this stream (the stream is not opened in
append mode).  A character stands for a byte. -/
structure ofstream where
  fail : Bool
  buf : String
  pos : Nat
deriving DecidableEq, Repr

/-- Translation of `struct auto_file`: the path `_p`, the stream `_s` and the
flag `_self_destruct`. -/
structure auto_file where
  _p : String
  _s : ofstream
  _self_destruct : Bool
deriving DecidableEq, Repr

/-- Translation of `struct block`: the mutex `_m` (true when some thread holds
it) and the file `_f`. -/
structure block where
  _m : Bool
  _f : auto_file
deriving DecidableEq, Repr

/-- Effects on the outside world, in the order they happen. -/
inductive Event where
  | system (cmd : String)
  | open_file (path : String) (ok : Bool)
  | write (path : String) (bytes : String)
deriving DecidableEq, Repr

/-- The process state together with the part of the file system it creates.

* `id`: the static `id` of `session_id` (`none` before its initialisation);
* `inited`: the static `inited` of `make_path`;
* `open_terminal`: the instantiations of `operator<<(auto_file&, T&&)` whose
  static `open_terminal` has been initialised;
* `heap`: the `block` objects allocated by `std::make_unique`, a pointer being
  the position in the list;
* `map`: the static `map` of `block(name)`, from names to pointers;
* `dirs`: the directories made by the process;
* `files`: the files on disk with their content; a file is identified by the
  components of its path (`canon`), so that `a` and `./a` are one file, and the
  first entry for a file is its current content;
* `trace`: the effects so far. -/
structure World where
  id : Option String
  inited : Bool
  open_terminal : List Ty
  heap : List block
  map : List (String × Nat)
  dirs : List String
  files : List (List String × String)
  trace : List Event
deriving DecidableEq, Repr

/-- What the surroundings answer during one call: the number drawn from the
random engine, whether `mkdir -p` succeeds, whether the operating system lets
the file be opened (`open_ok`; which paths it accepts is its business, the
model only requires an existing directory above), and whether the writes to
the file succeed (`flush_ok`: at a flush, at an insertion that is written
through, at the close of the stream). -/
structure Env where
  rd : Nat
  mkdir_ok : Bool
  open_ok : Bool
  flush_ok : Bool
deriving DecidableEq, Repr

/-- How a call ends: it returns a value, an exception reaches the caller, or
the process is aborted (a failed `assert`). -/
inductive Outcome (α : Type) where
  | returned (a : α)
  | raised
  | aborted
deriving DecidableEq, Repr

/-- The state at process start: no static initialised, nothing allocated,
nothing created on disk. -/
def start : World :=
  { id := none, inited := false, open_terminal := [], heap := [], map := [],
    dirs := [], files := [], trace := [] }

/-! ## `session_id` and `make_path` -/

/-- The library's `std::uniform_int_distribution<>(a, b)` applied to an engine
output `g`, by its contract: a value of the closed range from `a` to `b`. -/
def uniform_int_distribution (a b g : Nat) : Nat :=
  a + g % (b - a + 1)

/-- Translation of `session_id()`: the static `id` is computed on the first call
and returned unchanged afterwards. -/
def session_id (w : World) (e : Env) : String × World :=
  match w.id with
  | some s => (s, w)
  | none =>
    let s := "multitail-" ++ toString (uniform_int_distribution 100000000 999999999 e.rd)
    (s, { w with id := some s })

/-- Translation of `std::system(cmd)`: the command is run and its exit status is
dropped, as at both call sites of the header. -/
def system (w : World) (cmd : String) : World :=
  { w with trace := w.trace ++ [Event.system cmd] }

/-- Translation of `make_path(filename)`.  The static `inited` runs
`mkdir -p /tmp/<session id>` once; the directory exists afterwards when the
command succeeded. -/
def make_path (w : World) (e : Env) (filename : String) : String × World :=
  let w1 :=
    if w.inited then w
    else
      let r := session_id w e
      let w2 := system r.2 ("mkdir -p /tmp/" ++ r.1)
      { w2 with inited := true,
                dirs := if e.mkdir_ok then ("/tmp/" ++ r.1) :: w2.dirs else w2.dirs }
  let r := session_id w1 e
  ("/tmp/" ++ r.1 ++ "/" ++ filename, r.2)

/-! ## Paths and files -/

/-- The pieces of a path between its slashes. -/
def split_slash : List Char → List (List Char)
  | [] => [[]]
  | c :: cs =>
    if c = '/' then [] :: split_slash cs
    else
      match split_slash cs with
      | [] => [[c]]
      | x :: xs => (c :: x) :: xs

/-- One component of a path followed from the directory `acc`: an empty
component and `.` stay there, `..` goes to the parent, a name goes down. -/
def canon_step (acc : List String) (c : String) : List String :=
  if c = "" ∨ c = "." then acc
  else if c = ".." then acc.dropLast
  else acc ++ [c]

/-- The file a path names: the components left after following the path from
the root.  Two paths name the same file exactly when these components are
equal: names are case-sensitive and there are no links. -/
def canon (path : String) : List String :=
  ((split_slash path.data).map String.mk).foldl canon_step []

/-- Whether `path` lies below the directory `d`. -/
def is_under (d path : String) : Bool :=
  (d ++ "/").data.isPrefixOf path.data

/-- Constructor of `std::ofstream` from a path in mode `out | binary`: it can
succeed only below an existing directory; on success the file the path names
exists and is empty (an existing file is truncated). -/
def ofstream_open (w : World) (e : Env) (path : String) : ofstream × World :=
  let ok := e.open_ok && w.dirs.any (fun d => is_under d path)
  ({ fail := !ok, buf := "", pos := 0 },
   { w with files := if ok then (canon path, "") :: w.files else w.files,
            trace := w.trace ++ [Event.open_file path ok] })

/-- Translation of the constructor `auto_file(f)`: `_p` is `make_path(f)`, `_s`
is opened on it, and `assert(static_cast<bool>(_s))` aborts the process when
the stream is not open, unless the build defines `NDEBUG`. -/
def auto_file_ctor (ndebug : Bool) (w : World) (e : Env) (f : String) :
    Outcome auto_file × World :=
  let p := make_path w e f
  let s := ofstream_open p.2 e p.1
  if s.1.fail && !ndebug then (Outcome.aborted, s.2)
  else (Outcome.returned { _p := p.1, _s := s.1, _self_destruct := false }, s.2)

/-- Translation of `auto_file::self_destruct()`. -/
def auto_file.self_destruct (f : auto_file) : auto_file :=
  { f with _self_destruct := true }

/-- The content of the file at `path`, if it exists. -/
def read_file (w : World) (path : String) : Option String :=
  w.files.lookup (canon path)

/-- The content of a file after `bytes` are written at position `pos`: bytes
already there are overwritten, and a position beyond the end leaves a gap of
zero bytes. -/
def write_at (old : String) (pos : Nat) (bytes : String) : String :=
  String.mk ((old.data ++ List.replicate (pos - old.data.length) (Char.ofNat 0)).take pos ++
    bytes.data ++ old.data.drop (pos + bytes.data.length))

/-- Translation of the destructor of `auto_file`: the body unlinks the file
when the flag is set; then the stream member is destroyed, which closes it and
writes the bytes still in its buffer to the file if that is still there and
the write succeeds. -/
def auto_file_dtor (w : World) (e : Env) (f : auto_file) : World :=
  let w1 :=
    if f._self_destruct then
      { w with files := w.files.filter (fun pc => pc.1 != canon f._p) }
    else w
  match read_file w1 f._p with
  | none => w1
  | some old =>
    if f._s.buf = "" then w1
    else if e.flush_ok then
      { w1 with files := (canon f._p, write_at old f._s.pos f._s.buf) :: w1.files,
                trace := w1.trace ++ [Event.write f._p f._s.buf] }
    else w1

/-- The command line built by the initialiser of `open_terminal`. -/
def viewer_cmdline (sid : String) : String :=
  let thescript : List String := [
    "tell application \"Terminal\"",
    "    set thescript to \"multitail -s 4 -n 1 -q 0 \\\"/tmp/" ++ sid ++ "/*\\\" --basename\"",
    "    if exists window 0 then",
    "        set curtab to do script thescript in window 0",
    "    else",
    "        set curtab to do script thescript",
    "    end if",
    "    set number of rows of curtab to 50",
    "    set number of columns of curtab to 200",
    "end tell"]
  thescript.foldl (fun cmdline line => cmdline ++ (" -e '" ++ line ++ "'")) "osascript"

/-- The static `open_terminal` of the instantiation of
`operator<<(auto_file&, T&&)` for the type `t`: its initialiser runs the viewer
command the first time this instantiation is entered. -/
def open_terminal_init (w : World) (e : Env) (t : Ty) : World :=
  if t ∈ w.open_terminal then w
  else
    let r := session_id w e
    let w1 := system r.2 (viewer_cmdline r.1)
    { w1 with open_terminal := t :: w1.open_terminal }

/-- The size of the put area of the file buffer (`BUFSIZ - 1`). -/
def filebuf_capacity : Nat := 8191

/-- The length from which the file buffer writes a sequence through instead of
storing it (1 KiB, or the room left in the put area when that is less). -/
def write_through_limit (s : ofstream) : Nat :=
  min 1024 (filebuf_capacity - s.buf.data.length)

/-- Replaces the stream of the `block` at pointer `h`. -/
def set_stream (w : World) (h : Nat) (s : ofstream) : World :=
  match w.heap[h]? with
  | none => w
  | some b => { w with heap := w.heap.set h { b with _f := { b._f with _s := s } } }

/-- The bytes `bytes` of the stream of the `block` at `h` are written to its
file at the position of the stream, after which the buffer is empty and the
position has advanced. -/
def write_out (w : World) (h : Nat) (b : block) (bytes : String) : World :=
  let old := (read_file w b._f._p).getD ""
  let w1 := set_stream w h
    { b._f._s with buf := "", pos := b._f._s.pos + bytes.data.length }
  { w1 with files := (canon b._f._p, write_at old b._f._s.pos bytes) :: w1.files,
            trace := w1.trace ++ [Event.write b._f._p bytes] }

/-- The step `f._s << text` on the `block` at pointer `h`.  Nothing happens in
the error state.  A short sequence goes to the buffer.  A sequence that
reaches the write-through limit is written to the file at once, together with
the buffered bytes; when that write fails the stream enters the error state
and the buffered bytes stay where they are. -/
def stream_insert (w : World) (e : Env) (h : Nat) (text : String) : World :=
  match w.heap[h]? with
  | none => w
  | some b =>
    if b._f._s.fail then w
    else if write_through_limit b._f._s ≤ text.data.length then
      if e.flush_ok then write_out w h b (b._f._s.buf ++ text)
      else set_stream w h { b._f._s with fail := true }
    else set_stream w h { b._f._s with buf := b._f._s.buf ++ text }

/-- The step `f._s << std::flush` on the `block` at pointer `h`.  Nothing
happens in the error state or with an empty buffer.  Otherwise the buffered
bytes are written to the file; when that fails they stay in the buffer and the
stream enters the error state, which nothing in the header clears. -/
def stream_flush (w : World) (e : Env) (h : Nat) : World :=
  match w.heap[h]? with
  | none => w
  | some b =>
    if b._f._s.fail then w
    else if b._f._s.buf = "" then w
    else if e.flush_ok then write_out w h b b._f._s.buf
    else set_stream w h { b._f._s with fail := true }

/-- Translation of `operator<<(auto_file& f, T&& x)` for the file of the
`block` at `h`: the static `open_terminal`, then
`f._s << x << newline << std::flush`. -/
def auto_file_shl (w : World) (e : Env) (h : Nat) (x : Value) : World :=
  let w1 := open_terminal_init w e x.ty
  let w2 := stream_insert w1 e h x.text
  let w3 := stream_insert w2 e h "\n"
  stream_flush w3 e h

/-! ## `block` and `post` -/

/-- Translation of the constructor `block(p)`: the mutex starts unlocked and
`_f` is constructed from `p`. -/
def block_ctor (ndebug : Bool) (w : World) (e : Env) (p : String) : Outcome block × World :=
  match auto_file_ctor ndebug w e p with
  | (Outcome.returned f, w1) => (Outcome.returned { _m := false, _f := f }, w1)
  | (Outcome.raised, w1) => (Outcome.raised, w1)
  | (Outcome.aborted, w1) => (Outcome.aborted, w1)

/-- Translation of `operator<<(block& b, T&& x)`: it forwards to `b._f << x`
and does nothing else. -/
def block_shl (w : World) (e : Env) (h : Nat) (x : Value) : World :=
  auto_file_shl w e h x

/-- Translation of `detail::block(name)`, the body run under the registry
mutex: the pointer found in `map`, or else a newly allocated `block` that is
inserted under `name`. -/
def block_of (ndebug : Bool) (w : World) (e : Env) (name : String) : Outcome Nat × World :=
  match w.map.lookup name with
  | some h => (Outcome.returned h, w)
  | none =>
    match block_ctor ndebug w e name with
    | (Outcome.returned b, w1) =>
      (Outcome.returned w1.heap.length,
       { w1 with heap := w1.heap ++ [b], map := w1.map ++ [(name, w1.heap.length)] })
    | (Outcome.raised, w1) => (Outcome.raised, w1)
    | (Outcome.aborted, w1) => (Outcome.aborted, w1)

/-- Translation of `post(name, value)`:
`multitail::detail::block(name) << value`. -/
def post (ndebug : Bool) (w : World) (e : Env) (name : String) (value : Value) :
    Outcome Unit × World :=
  match block_of ndebug w e name with
  | (Outcome.returned h, w1) => (Outcome.returned (), block_shl w1 e h value)
  | (Outcome.raised, w1) => (Outcome.raised, w1)
  | (Outcome.aborted, w1) => (Outcome.aborted, w1)

/-- One call of `post` with the answers of the surroundings during it. -/
structure Call where
  env : Env
  name : String
  value : Value
deriving DecidableEq, Repr

/-- A sequence of `post` calls made one after the other by one thread; the
sequence ends early when a call does not return. -/
def posts (ndebug : Bool) (w : World) : List Call → Outcome Unit × World
  | [] => (Outcome.returned (), w)
  | c :: cs =>
    match post ndebug w c.env c.name c.value with
    | (Outcome.returned _, w1) => posts ndebug w1 cs
    | (Outcome.raised, w1) => (Outcome.raised, w1)
    | (Outcome.aborted, w1) => (Outcome.aborted, w1)

/-- A sequence of `block(name)` calls, with the pointers they return in call
order; the sequence ends early when a call does not return. -/
def blocks (ndebug : Bool) (w : World) : List (Env × String) → Outcome (List Nat) × World
  | [] => (Outcome.returned [], w)
  | c :: cs =>
    match block_of ndebug w c.1 c.2 with
    | (Outcome.returned h, w1) =>
      match blocks ndebug w1 cs with
      | (Outcome.returned hs, w2) => (Outcome.returned (h :: hs), w2)
      | (Outcome.raised, w2) => (Outcome.raised, w2)
      | (Outcome.aborted, w2) => (Outcome.aborted, w2)
    | (Outcome.raised, w1) => (Outcome.raised, w1)
    | (Outcome.aborted, w1) => (Outcome.aborted, w1)

/-- The names registered in `map`. -/
def keys (w : World) : List String :=
  w.map.map Prod.fst

/-- The path `make_path` gives `name` in the session of `w`. -/
def path_in (w : World) (name : String) : String :=
  "/tmp/" ++ w.id.getD "" ++ "/" ++ name

/-- Whether an effect is a run of the viewer command (an `osascript` command
line, as opposed to the `mkdir` one). -/
def is_launch : Event → Bool
  | .system cmd => "osascript".data.isPrefixOf cmd.data
  | _ => false

/-- Whether an effect is bytes reaching a file. -/
def is_write : Event → Bool
  | .write _ _ => true
  | _ => false

/-- How many times the viewer command has been run. -/
def launches (w : World) : Nat :=
  (w.trace.filter is_launch).length

/-- Process exit after `main` returns: the static `map` is destroyed and with
it every `block`. -/
def teardown (w : World) (e : Env) : World :=
  w.heap.foldl (fun u b => auto_file_dtor u e b._f) w

/-- The paths on which a stream was opened, in order. -/
def open_paths : List Event → List String
  | [] => []
  | .open_file p _ :: es => p :: open_paths es
  | _ :: es => open_paths es

/-- The streams opened, in order: the path and whether the opening succeeded,
in which case the file was created or emptied. -/
def opens : List Event → List (String × Bool)
  | [] => []
  | .open_file p ok :: es => (p, ok) :: opens es
  | _ :: es => opens es

/-- No bytes reach a file before the first run of the viewer command. -/
def launch_precedes_writes (tr : List Event) : Bool :=
  (tr.takeWhile (fun ev => !is_launch ev)).all (fun ev => !is_write ev)

/-- The registry is consistent: names are registered once, the pointers are
the allocated objects in allocation order, every registered `block` carries the
path `make_path` gives its name, a stream in the good state holds no bytes
between calls, the streams opened so far are those of the registered names,
and every file whose opening succeeded exists. -/
structure Inv (w : World) : Prop where
  keys_nodup : (keys w).Nodup
  ptrs : w.map.map Prod.snd = List.range w.heap.length
  paths : ∀ n h, (n, h) ∈ w.map → ∃ b, w.heap[h]? = some b ∧ b._f._p = path_in w n
  has_id : w.map ≠ [] → w.id ≠ none
  bufs : ∀ b ∈ w.heap, b._f._s.fail = false → b._f._s.buf = ""
  opened : open_paths w.trace = w.map.map (fun nh => path_in w nh.1)
  created : ∀ p, Event.open_file p true ∈ w.trace → (read_file w p).isSome = true

/-- What the stream operations on the `block` at `h` may change between `w` and
`u`: the stream of that block, the content of its file, and the trace, by
writes. -/
structure Touches (w u : World) (h : Nat) : Prop where
  id : u.id = w.id
  inited : u.inited = w.inited
  open_terminal : u.open_terminal = w.open_terminal
  map : u.map = w.map
  dirs : u.dirs = w.dirs
  length : u.heap.length = w.heap.length
  other : ∀ k, k ≠ h → u.heap[k]? = w.heap[k]?
  same : ∀ b, w.heap[h]? = some b →
    ∃ s, u.heap[h]? = some { b with _f := { b._f with _s := s } }
  files : ∀ key, (∀ b, w.heap[h]? = some b → key ≠ canon b._f._p) →
    u.files.lookup key = w.files.lookup key
  exist : ∀ key, (w.files.lookup key).isSome = true → (u.files.lookup key).isSome = true
  trace : ∃ ws, u.trace = w.trace ++ ws ∧ ∀ ev ∈ ws, is_write ev = true

/-! ## Threads

`post` is made of five steps, each of which touches the shared state once:
the registry lookup (the only part run under a mutex, the one of
`block(name)`), the initialisation of `open_terminal`, and the three stream
operations of `f._s << x << newline << std::flush`. -/

/-- A thread inside one call of `post`: the call, the number of steps done and
the reference obtained from `block(name)`. -/
structure Thread where
  call : Call
  pc : Nat
  h : Nat
deriving DecidableEq, Repr

/-- One step of a thread. -/
def Thread.step (ndebug : Bool) (w : World) (t : Thread) : Outcome Thread × World :=
  match t.pc with
  | 0 =>
    match block_of ndebug w t.call.env t.call.name with
    | (Outcome.returned h, w1) => (Outcome.returned { t with pc := 1, h := h }, w1)
    | (Outcome.raised, w1) => (Outcome.raised, w1)
    | (Outcome.aborted, w1) => (Outcome.aborted, w1)
  | 1 => (Outcome.returned { t with pc := 2 }, open_terminal_init w t.call.env t.call.value.ty)
  | 2 =>
    (Outcome.returned { t with pc := 3 }, stream_insert w t.call.env t.h t.call.value.text)
  | 3 => (Outcome.returned { t with pc := 4 }, stream_insert w t.call.env t.h "\n")
  | 4 => (Outcome.returned { t with pc := 5 }, stream_flush w t.call.env t.h)
  | _ => (Outcome.returned t, w)

/-- The threads run according to a schedule: each entry names the thread that
makes the next step. -/
def run_threads (ndebug : Bool) (w : World) (ts : List Thread) : List Nat → Outcome (List Thread) × World
  | [] => (Outcome.returned ts, w)
  | i :: sched =>
    match ts[i]? with
    | none => run_threads ndebug w ts sched
    | some t =>
      match t.step ndebug w with
      | (Outcome.returned t1, w1) => run_threads ndebug w1 (ts.set i t1) sched
      | (Outcome.raised, w1) => (Outcome.raised, w1)
      | (Outcome.aborted, w1) => (Outcome.aborted, w1)

/-- A thread about to call `post`. -/
def Thread.of_call (c : Call) : Thread :=
  { call := c, pc := 0, h := 0 }


/-! ## Decimal rendering of a nine-digit number -/

theorem toDigits_nine (n : Nat) (h1 : 100000000 ≤ n) (h2 : n ≤ 999999999) :
    Nat.toDigits 10 n =
      [Nat.digitChar (n / 100000000 % 10), Nat.digitChar (n / 10000000 % 10),
       Nat.digitChar (n / 1000000 % 10), Nat.digitChar (n / 100000 % 10),
       Nat.digitChar (n / 10000 % 10), Nat.digitChar (n / 1000 % 10),
       Nat.digitChar (n / 100 % 10), Nat.digitChar (n / 10 % 10), Nat.digitChar (n % 10)] := by
  obtain ⟨k, rfl⟩ : ∃ k, n = k + 8 := ⟨n - 8, by omega⟩
  have d1 : (k + 8) / 10 ≠ 0 := by omega
  have d2 : (k + 8) / 10 / 10 ≠ 0 := by omega
  have d3 : (k + 8) / 10 / 10 / 10 ≠ 0 := by omega
  have d4 : (k + 8) / 10 / 10 / 10 / 10 ≠ 0 := by omega
  have d5 : (k + 8) / 10 / 10 / 10 / 10 / 10 ≠ 0 := by omega
  have d6 : (k + 8) / 10 / 10 / 10 / 10 / 10 / 10 ≠ 0 := by omega
  have d7 : (k + 8) / 10 / 10 / 10 / 10 / 10 / 10 / 10 ≠ 0 := by omega
  have d8 : (k + 8) / 10 / 10 / 10 / 10 / 10 / 10 / 10 / 10 ≠ 0 := by omega
  have d9 : (k + 8) / 10 / 10 / 10 / 10 / 10 / 10 / 10 / 10 / 10 = 0 := by omega
  have e2 : (k + 8) / 10 / 10 = (k + 8) / 100 := by omega
  have e3 : (k + 8) / 10 / 10 / 10 = (k + 8) / 1000 := by omega
  have e4 : (k + 8) / 10 / 10 / 10 / 10 = (k + 8) / 10000 := by omega
  have e5 : (k + 8) / 10 / 10 / 10 / 10 / 10 = (k + 8) / 100000 := by omega
  have e6 : (k + 8) / 10 / 10 / 10 / 10 / 10 / 10 = (k + 8) / 1000000 := by omega
  have e7 : (k + 8) / 10 / 10 / 10 / 10 / 10 / 10 / 10 = (k + 8) / 10000000 := by omega
  have e8 : (k + 8) / 10 / 10 / 10 / 10 / 10 / 10 / 10 / 10 = (k + 8) / 100000000 := by omega
  show Nat.toDigitsCore 10 (k + 8 + 1) (k + 8) [] = _
  simp only [Nat.toDigitsCore, d1, d2, d3, d4, d5, d6, d7, d8, d9, if_true, if_false]
  rw [e8, e7, e6, e5, e4, e3, e2]

theorem digitChar_isDigit (d : Nat) (h : d < 10) : (Nat.digitChar d).isDigit = true := by
  interval_cases d <;> decide

theorem digitChar_ne_zero (d : Nat) (h0 : 0 < d) (h : d < 10) : Nat.digitChar d ≠ '0' := by
  interval_cases d <;> decide

theorem uniform_int_distribution_range (g : Nat) :
    100000000 ≤ uniform_int_distribution 100000000 999999999 g ∧
      uniform_int_distribution 100000000 999999999 g ≤ 999999999 := by
  unfold uniform_int_distribution
  omega

theorem toString_nine_digits (n : Nat) (h1 : 100000000 ≤ n) (h2 : n ≤ 999999999) :
    (toString n).length = 9 ∧ (∀ c ∈ (toString n).data, c.isDigit = true) ∧
      (toString n).data.head? ≠ some '0' := by
  have hd : (toString n).data = Nat.toDigits 10 n := rfl
  have hl : (toString n).length = (Nat.toDigits 10 n).length := rfl
  rw [hl, hd, toDigits_nine n h1 h2]
  refine ⟨rfl, ?_, ?_⟩
  · intro c hc
    simp only [List.mem_cons, List.mem_singleton, List.not_mem_nil, or_false] at hc
    rcases hc with h | h | h | h | h | h | h | h | h <;> subst h <;>
      exact digitChar_isDigit _ (Nat.mod_lt _ (by decide))
  · simp only [List.head?_cons, ne_eq, Option.some.injEq]
    exact digitChar_ne_zero _ (by omega) (Nat.mod_lt _ (by decide))

/-! ## The memoised session identity -/

theorem session_id_of_some {w : World} {s : String} (e : Env) (h : w.id = some s) :
    session_id w e = (s, w) := by
  simp [session_id, h]

theorem session_id_snd_id (w : World) (e : Env) :
    (session_id w e).2.id = some (session_id w e).1 := by
  unfold session_id
  cases h : w.id <;> simp [h]

theorem session_id_snd (w : World) (e : Env) :
    (session_id w e).2 = { w with id := some (session_id w e).1 } := by
  unfold session_id
  cases h : w.id with
  | none => simp
  | some s => cases w; simp_all

theorem session_id_again (w : World) (e e' : Env) :
    session_id (session_id w e).2 e' = ((session_id w e).1, (session_id w e).2) :=
  session_id_of_some e' (session_id_snd_id w e)

theorem session_id_fst_of_none {w : World} (e : Env) (h : w.id = none) :
    (session_id w e).1 =
      "multitail-" ++ toString (uniform_int_distribution 100000000 999999999 e.rd) := by
  simp [session_id, h]

/-! ## Closed forms of the file operations -/

theorem make_path_fst (w : World) (e : Env) (f : String) :
    (make_path w e f).1 = "/tmp/" ++ (session_id w e).1 ++ "/" ++ f := by
  unfold make_path
  by_cases hi : w.inited = true
  · simp [hi]
  · simp only [hi, Bool.false_eq_true, if_false]
    rw [session_id_of_some (s := (session_id w e).1) e (by simp [system, session_id_snd_id])]

theorem make_path_snd (w : World) (e : Env) (f : String) :
    (make_path w e f).2 =
      if w.inited then { w with id := some (session_id w e).1 }
      else { w with
        id := some (session_id w e).1, inited := true,
        dirs := if e.mkdir_ok then ("/tmp/" ++ (session_id w e).1) :: w.dirs else w.dirs,
        trace := w.trace ++ [Event.system ("mkdir -p /tmp/" ++ (session_id w e).1)] } := by
  unfold make_path
  by_cases hi : w.inited = true
  · rw [if_pos hi, if_pos hi]
    exact session_id_snd w e
  · simp only [hi, Bool.false_eq_true, if_false]
    rw [session_id_of_some (s := (session_id w e).1) e (by simp [system, session_id_snd_id])]
    simp [system, session_id_snd w e]

theorem block_of_found {w : World} (ndebug : Bool) (e : Env) {n : String} {h : Nat}
    (hl : w.map.lookup n = some h) : block_of ndebug w e n = (Outcome.returned h, w) := by
  simp [block_of, hl]

theorem block_of_absent {w : World} (ndebug : Bool) (e : Env) {n : String}
    (hl : w.map.lookup n = none) :
    block_of ndebug w e n =
      if (ofstream_open (make_path w e n).2 e (make_path w e n).1).1.fail && !ndebug then
        (Outcome.aborted, (ofstream_open (make_path w e n).2 e (make_path w e n).1).2)
      else
        (Outcome.returned (ofstream_open (make_path w e n).2 e (make_path w e n).1).2.heap.length,
         { (ofstream_open (make_path w e n).2 e (make_path w e n).1).2 with
           heap := (ofstream_open (make_path w e n).2 e (make_path w e n).1).2.heap ++
             [{ _m := false,
                _f := { _p := (make_path w e n).1,
                        _s := (ofstream_open (make_path w e n).2 e (make_path w e n).1).1,
                        _self_destruct := false } }],
           map := (ofstream_open (make_path w e n).2 e (make_path w e n).1).2.map ++
             [(n, (ofstream_open (make_path w e n).2 e (make_path w e n).1).2.heap.length)] }) := by
  simp only [block_of, hl, block_ctor, auto_file_ctor]
  by_cases hc : ((ofstream_open (make_path w e n).2 e (make_path w e n).1).1.fail && !ndebug) = true
  · rw [if_pos hc, if_pos hc]
  · rw [if_neg hc, if_neg hc]

theorem set_stream_eq {w : World} {h : Nat} {b : block} (s : ofstream) (hb : w.heap[h]? = some b) :
    set_stream w h s = { w with heap := w.heap.set h { b with _f := { b._f with _s := s } } } := by
  simp [set_stream, hb]

theorem set_same {l : List block} {h : Nat} {b : block} (hb : l[h]? = some b) : l.set h b = l := by
  apply List.ext_getElem?
  intro i
  by_cases hi : h = i
  · subst hi
    have hlt : h < l.length := by
      by_contra hge
      rw [List.getElem?_eq_none (by omega)] at hb
      cases hb
    rw [List.getElem?_set_self hlt, hb]
  · rw [List.getElem?_set_ne hi]

theorem open_terminal_init_eq (w : World) (e : Env) (t : Ty) :
    open_terminal_init w e t =
      if t ∈ w.open_terminal then w
      else { w with
        id := some (session_id w e).1,
        open_terminal := t :: w.open_terminal,
        trace := w.trace ++ [Event.system (viewer_cmdline (session_id w e).1)] } := by
  unfold open_terminal_init
  split
  · rfl
  · simp [system, session_id_snd w e]

theorem open_paths_append (xs ys : List Event) :
    open_paths (xs ++ ys) = open_paths xs ++ open_paths ys := by
  induction xs with
  | nil => rfl
  | cons x xs ih => cases x <;> simp [open_paths, ih]

theorem start_inv : Inv start := by
  constructor <;> simp [start, keys, open_paths]

theorem path_in_of_id {w w' : World} (h : w'.id = w.id) (n : String) :
    path_in w' n = path_in w n := by
  simp [path_in, h]

theorem path_in_some {w : World} {s : String} (h : w.id = some s) (n : String) :
    path_in w n = "/tmp/" ++ s ++ "/" ++ n := by
  simp [path_in, h]

theorem string_append_left_cancel {a b c : String} (h : a ++ b = a ++ c) : b = c := by
  apply String.ext
  have := congrArg String.data h
  simpa using this

theorem path_in_injective (w : World) {n m : String} (h : path_in w n = path_in w m) : n = m := by
  unfold path_in at h
  exact string_append_left_cancel h

theorem getElem?_lt {l : List block} {h : Nat} {b : block} (hb : l[h]? = some b) :
    h < l.length := by
  by_contra hge
  rw [List.getElem?_eq_none (by omega)] at hb
  cases hb

theorem touches_refl (w : World) (h : Nat) : Touches w w h := by
  refine ⟨rfl, rfl, rfl, rfl, rfl, rfl, fun _ _ => rfl, ?_, fun _ _ => rfl, fun _ hk => hk,
    [], by simp, by simp⟩
  intro b hb
  exact ⟨b._f._s, hb⟩

theorem touches_trans {w u v : World} {h : Nat} (h1 : Touches w u h) (h2 : Touches u v h) :
    Touches w v h := by
  refine ⟨h2.id.trans h1.id, h2.inited.trans h1.inited, h2.open_terminal.trans h1.open_terminal,
    h2.map.trans h1.map, h2.dirs.trans h1.dirs, h2.length.trans h1.length,
    fun k hk => (h2.other k hk).trans (h1.other k hk), ?_, ?_,
    fun key hk => h2.exist key (h1.exist key hk), ?_⟩
  · intro b hb
    obtain ⟨s, hs⟩ := h1.same b hb
    obtain ⟨s2, hs2⟩ := h2.same _ hs
    exact ⟨s2, hs2⟩
  · intro key hkey
    rw [← h1.files key hkey]
    apply h2.files key
    intro b1 hb1
    have hlt : h < w.heap.length := by
      have := getElem?_lt hb1
      rw [h1.length] at this
      exact this
    obtain ⟨s, hs⟩ := h1.same _ (List.getElem?_eq_getElem hlt)
    rw [hs] at hb1
    cases hb1
    exact hkey (w.heap[h]) (List.getElem?_eq_getElem hlt)
  · obtain ⟨ws1, ht1, hw1⟩ := h1.trace
    obtain ⟨ws2, ht2, hw2⟩ := h2.trace
    refine ⟨ws1 ++ ws2, by rw [ht2, ht1, List.append_assoc], ?_⟩
    intro ev hev
    rcases List.mem_append.mp hev with hm | hm
    · exact hw1 ev hm
    · exact hw2 ev hm

theorem touches_set_stream {w : World} {h : Nat} {b : block} (s : ofstream)
    (hb : w.heap[h]? = some b) : Touches w (set_stream w h s) h := by
  have hlt := getElem?_lt hb
  rw [set_stream_eq s hb]
  refine ⟨rfl, rfl, rfl, rfl, rfl, by simp, ?_, ?_, fun _ _ => rfl, fun _ hk => hk,
    [], by simp, by simp⟩
  · intro k hk
    simp [List.getElem?_set_ne (Ne.symm hk)]
  · intro b1 hb1
    rw [hb] at hb1
    cases hb1
    exact ⟨s, by simp [List.getElem?_set_self hlt]⟩

theorem lookup_cons_ne {α : Type} {l : List (List String × α)} {p q : List String} {c : α}
    (h : p ≠ q) : List.lookup p ((q, c) :: l) = List.lookup p l := by
  rw [List.lookup_cons]
  have : (p == q) = false := by simpa using h
  rw [this]

theorem lookup_cons_isSome {α : Type} {l : List (List String × α)} {p q : List String} {c : α}
    (h : (List.lookup p l).isSome = true) : (List.lookup p ((q, c) :: l)).isSome = true := by
  rw [List.lookup_cons]
  cases hpq : (p == q) <;> simp [h]

theorem touches_write_out {w : World} {h : Nat} {b : block} (bytes : String)
    (hb : w.heap[h]? = some b) : Touches w (write_out w h b bytes) h := by
  have hlt := getElem?_lt hb
  unfold write_out
  rw [set_stream_eq _ hb]
  refine ⟨rfl, rfl, rfl, rfl, rfl, by simp, ?_, ?_, ?_, ?_, [Event.write b._f._p bytes], rfl, ?_⟩
  · intro k hk
    simp [List.getElem?_set_ne (Ne.symm hk)]
  · intro b1 hb1
    rw [hb] at hb1
    cases hb1
    exact ⟨{ b._f._s with buf := "", pos := b._f._s.pos + bytes.data.length },
      by simp only [List.getElem?_set_self hlt]⟩
  · intro key hkey
    exact lookup_cons_ne (hkey b hb)
  · intro key hk
    exact lookup_cons_isSome hk
  · intro ev hev
    simp only [List.mem_singleton] at hev
    rw [hev]
    rfl

theorem touches_stream_insert (w : World) (e : Env) (h : Nat) (t : String) :
    Touches w (stream_insert w e h t) h := by
  unfold stream_insert
  split
  · exact touches_refl w h
  · rename_i b hb
    split
    · exact touches_refl w h
    · split
      · split
        · exact touches_write_out _ hb
        · exact touches_set_stream _ hb
      · exact touches_set_stream _ hb

theorem touches_stream_flush (w : World) (e : Env) (h : Nat) :
    Touches w (stream_flush w e h) h := by
  unfold stream_flush
  split
  · exact touches_refl w h
  · rename_i b hb
    split
    · exact touches_refl w h
    · split
      · exact touches_refl w h
      · split
        · exact touches_write_out _ hb
        · exact touches_set_stream _ hb

/-- After its first statement, `operator<<` on the `auto_file` of the block at
`h` touches nothing but that block's stream, its file and the trace. -/
theorem touches_auto_file_shl (w : World) (e : Env) (h : Nat) (x : Value) :
    Touches (open_terminal_init w e x.ty) (auto_file_shl w e h x) h := by
  unfold auto_file_shl
  exact touches_trans (touches_trans (touches_stream_insert _ e h x.text)
    (touches_stream_insert _ e h "\n")) (touches_stream_flush _ e h)

theorem session_id_fst_of_ne_none {w : World} (e : Env) (h : w.id ≠ none) :
    w.id = some (session_id w e).1 := by
  cases hw : w.id with
  | none => exact absurd hw h
  | some s => rw [session_id_of_some e hw]

theorem inv_congr {w w' : World} (hi : Inv w) (h1 : w'.id = w.id) (h2 : w'.heap = w.heap)
    (h3 : w'.map = w.map) (h4 : open_paths w'.trace = open_paths w.trace)
    (h5 : ∀ p, Event.open_file p true ∈ w'.trace → Event.open_file p true ∈ w.trace)
    (h6 : ∀ key, (w.files.lookup key).isSome = true → (w'.files.lookup key).isSome = true) :
    Inv w' := by
  have hp : ∀ n, path_in w' n = path_in w n := path_in_of_id h1
  constructor
  · simpa [keys, h3] using hi.keys_nodup
  · rw [h3, h2]; exact hi.ptrs
  · intro n h hm
    rw [h3] at hm
    rw [h2, hp]
    exact hi.paths n h hm
  · rw [h3, h1]; exact hi.has_id
  · rw [h2]; exact hi.bufs
  · rw [h4, h3, hi.opened]
    simp [hp]
  · intro p hp
    exact h6 _ (hi.created p (h5 p hp))

theorem inv_heap_nil {w : World} (hi : Inv w) (h : w.map = []) : w.heap = [] := by
  have := hi.ptrs
  rw [h] at this
  have hl : (List.range w.heap.length).length = 0 := by rw [← this]; rfl
  rw [List.length_range] at hl
  exact List.length_eq_zero.mp hl

theorem inv_set_id {w w' : World} (e : Env) (hi : Inv w) (h1 : w'.id = some (session_id w e).1)
    (h2 : w'.heap = w.heap) (h3 : w'.map = w.map)
    (h4 : open_paths w'.trace = open_paths w.trace)
    (h5 : ∀ p, Event.open_file p true ∈ w'.trace → Event.open_file p true ∈ w.trace)
    (h6 : ∀ key, (w.files.lookup key).isSome = true → (w'.files.lookup key).isSome = true) :
    Inv w' := by
  by_cases hid : w.id = none
  · have hm : w.map = [] := by
      by_contra hne
      exact hi.has_id hne hid
    have hh : w.heap = [] := inv_heap_nil hi hm
    have ho := hi.opened
    rw [hm] at ho
    constructor
    · simp [keys, h3, hm]
    · simp [h3, hm, h2, hh]
    · intro n h hmem
      rw [h3, hm] at hmem
      cases hmem
    · intro _
      rw [h1]
      exact Option.some_ne_none _
    · rw [h2, hh]
      intro b hb
      cases hb
    · rw [h4, ho, h3, hm]
      rfl
    · intro p hp
      exact h6 _ (hi.created p (h5 p hp))
  · exact inv_congr hi (by rw [h1]; exact (session_id_fst_of_ne_none e hid).symm) h2 h3 h4 h5 h6

theorem inv_lt {w : World} (hi : Inv w) {n : String} {h : Nat} (hm : (n, h) ∈ w.map) :
    h < w.heap.length := by
  have : h ∈ w.map.map Prod.snd := List.mem_map.mpr ⟨(n, h), hm, rfl⟩
  rw [hi.ptrs] at this
  exact List.mem_range.mp this

theorem inv_create {w w' : World} {n : String} {b : block} (hi : Inv w) (hn : n ∉ keys w)
    (hp : b._f._p = path_in w n) (hbuf : b._f._s.buf = "") (hid : w.id ≠ none)
    (h1 : w'.id = w.id) (h2 : w'.heap = w.heap ++ [b])
    (h3 : w'.map = w.map ++ [(n, w.heap.length)])
    (h4 : open_paths w'.trace = open_paths w.trace ++ [path_in w n])
    (h5 : ∀ p, Event.open_file p true ∈ w'.trace →
      Event.open_file p true ∈ w.trace ∨ (read_file w' p).isSome = true)
    (h6 : ∀ key, (w.files.lookup key).isSome = true → (w'.files.lookup key).isSome = true) :
    Inv w' := by
  have hpi : ∀ m, path_in w' m = path_in w m := path_in_of_id h1
  constructor
  · have : keys w' = keys w ++ [n] := by simp [keys, h3]
    rw [this]
    exact List.Nodup.append hi.keys_nodup (List.nodup_singleton n) (by simpa using hn)
  · rw [h3, h2]
    simp [hi.ptrs, List.range_succ]
  · intro m h hm
    rw [h3] at hm
    rw [h2, hpi]
    rcases List.mem_append.mp hm with hm | hm
    · obtain ⟨b0, hb0, hp0⟩ := hi.paths m h hm
      refine ⟨b0, ?_, hp0⟩
      rw [List.getElem?_append_left (inv_lt hi hm)]
      exact hb0
    · simp only [List.mem_singleton, Prod.mk.injEq] at hm
      obtain ⟨rfl, rfl⟩ := hm
      exact ⟨b, by simp, hp⟩
  · intro _
    rw [h1]
    exact hid
  · rw [h2]
    intro b0 hb0 hgood
    rcases List.mem_append.mp hb0 with hb0 | hb0
    · exact hi.bufs b0 hb0 hgood
    · simp only [List.mem_singleton] at hb0
      rw [hb0]
      exact hbuf
  · rw [h4, h3, hi.opened]
    simp [hpi]
  · intro p hp
    rcases h5 p hp with h | h
    · exact h6 _ (hi.created p h)
    · exact h

theorem mkdir_not_launch (s : String) : is_launch (Event.system ("mkdir -p /tmp/" ++ s)) = false := by
  have h : ("mkdir -p /tmp/" ++ s).data = 'm' :: ("kdir -p /tmp/" ++ s).data := rfl
  have h2 : "osascript".data = 'o' :: "sascript".data := rfl
  simp only [is_launch, h, h2]
  rfl

theorem viewer_is_launch (s : String) : is_launch (Event.system (viewer_cmdline s)) = true := by
  have h : ∃ r, (viewer_cmdline s).data = "osascript".data ++ r := by
    simp only [viewer_cmdline, List.foldl, String.data_append, List.append_assoc]
    exact ⟨_, rfl⟩
  obtain ⟨r, hr⟩ := h
  simp only [is_launch, hr]
  rw [List.isPrefixOf_iff_prefix]
  exact ⟨r, rfl⟩

theorem inv_make_path {w : World} (hi : Inv w) (e : Env) (f : String) :
    Inv (make_path w e f).2 := by
  rw [make_path_snd]
  split
  · exact inv_set_id e hi rfl rfl rfl rfl (fun _ hp => hp) (fun _ hk => hk)
  · refine inv_set_id e hi rfl rfl rfl (by simp [open_paths_append, open_paths]) ?_
      (fun _ hk => hk)
    intro p hp
    simpa using hp

theorem lookup_none_not_mem {w : World} {n : String} (hl : w.map.lookup n = none) :
    n ∉ keys w := by
  intro hm
  obtain ⟨⟨k, v⟩, hkv, hk⟩ := List.mem_map.mp hm
  simp only at hk
  subst hk
  have := List.lookup_eq_none_iff.mp hl (k, v) hkv
  simp at this

/-- What a creating call of `block(name)` that returns has done. -/
theorem block_of_absent_spec {w w' : World} {ndebug : Bool} {e : Env} {n : String} {h : Nat}
    (hl : w.map.lookup n = none) (hr : block_of ndebug w e n = (Outcome.returned h, w')) :
    h = w.heap.length ∧ w'.id = some (session_id w e).1 ∧
    w'.map = w.map ++ [(n, w.heap.length)] ∧ w'.open_terminal = w.open_terminal ∧
    w'.inited = true ∧
    ∃ ok : Bool,
      w'.heap = w.heap ++
        [{ _m := false,
           _f := { _p := "/tmp/" ++ (session_id w e).1 ++ "/" ++ n,
                   _s := { fail := !ok, buf := "", pos := 0 },
                   _self_destruct := false } }] ∧
      ok = (e.open_ok && (make_path w e n).2.dirs.any
        (fun d => is_under d ("/tmp/" ++ (session_id w e).1 ++ "/" ++ n))) ∧
      (ok = false → ndebug = true) ∧
      w'.files = (if ok then (canon ("/tmp/" ++ (session_id w e).1 ++ "/" ++ n), "") :: w.files
                  else w.files) ∧
      ∃ pre, w'.trace = w.trace ++ pre ++
          [Event.open_file ("/tmp/" ++ (session_id w e).1 ++ "/" ++ n) ok] ∧
        (pre = [] ∨ pre = [Event.system ("mkdir -p /tmp/" ++ (session_id w e).1)]) := by
  rw [block_of_absent ndebug e hl] at hr
  by_cases hc : ((ofstream_open (make_path w e n).2 e (make_path w e n).1).1.fail && !ndebug) = true
  · rw [if_pos hc] at hr
    cases hr
  · rw [if_neg hc] at hr
    simp only [Prod.mk.injEq, Outcome.returned.injEq] at hr
    obtain ⟨hh, hw⟩ := hr
    subst hw
    have hheap : (make_path w e n).2.heap = w.heap := by
      rw [make_path_snd]; split <;> rfl
    have hmap : (make_path w e n).2.map = w.map := by
      rw [make_path_snd]; split <;> rfl
    have hot : (make_path w e n).2.open_terminal = w.open_terminal := by
      rw [make_path_snd]; split <;> rfl
    have hfiles : (make_path w e n).2.files = w.files := by
      rw [make_path_snd]; split <;> rfl
    have hid : (make_path w e n).2.id = some (session_id w e).1 := by
      rw [make_path_snd]; split <;> rfl
    have hin : (make_path w e n).2.inited = true := by
      rw [make_path_snd]
      by_cases hi : w.inited = true
      · rw [if_pos hi]; exact hi
      · rw [if_neg hi]
    have htr : ∃ pre, (make_path w e n).2.trace = w.trace ++ pre ∧
        (pre = [] ∨ pre = [Event.system ("mkdir -p /tmp/" ++ (session_id w e).1)]) := by
      rw [make_path_snd]
      split
      · exact ⟨[], by simp, Or.inl rfl⟩
      · exact ⟨_, rfl, Or.inr rfl⟩
    obtain ⟨pre, htr, hpre⟩ := htr
    simp only [ofstream_open, make_path_fst, hheap, hmap, hot, hfiles, hid, hin, htr] at hc hh ⊢
    refine ⟨hh.symm, trivial, trivial, trivial, trivial, _, rfl, rfl, ?_, ?_, pre, rfl, hpre⟩
    · intro hok
      rw [hok] at hc
      simpa using hc
    · rfl

theorem inv_block_of {w w' : World} {ndebug : Bool} {e : Env} {n : String} {h : Nat}
    (hi : Inv w) (hr : block_of ndebug w e n = (Outcome.returned h, w')) : Inv w' := by
  cases hl : w.map.lookup n with
  | some k =>
    rw [block_of_found ndebug e hl] at hr
    cases hr
    exact hi
  | none =>
    obtain ⟨_, hid, hmap, _, _, ok, hheap, _, _, hfiles, pre, htr, hpre⟩ :=
      block_of_absent_spec hl hr
    have hbase : Inv { w with id := some (session_id w e).1 } :=
      inv_set_id e hi rfl rfl rfl rfl (fun _ hp => hp) (fun _ hk => hk)
    refine inv_create (n := n) hbase (lookup_none_not_mem hl) ?_ rfl (by simp) hid hheap hmap
      ?_ ?_ ?_
    · exact (path_in_some rfl n).symm
    · rw [htr, path_in_some (w := { w with id := some (session_id w e).1 }) rfl n]
      rcases hpre with rfl | rfl <;> simp [open_paths_append, open_paths]
    · intro p hp
      rw [htr] at hp
      simp only [List.mem_append, List.mem_singleton, Event.open_file.injEq] at hp
      rcases hp with (hp | hp) | ⟨hp1, hp2⟩
      · exact Or.inl hp
      · rcases hpre with rfl | rfl
        · cases hp
        · simp at hp
      · right
        subst hp1
        rw [← hp2] at hfiles
        simp only [if_true] at hfiles
        simp [read_file, hfiles]
    · intro key hk
      rw [hfiles]
      split
      · exact lookup_cons_isSome hk
      · exact hk

theorem open_terminal_init_heap (w : World) (e : Env) (t : Ty) :
    (open_terminal_init w e t).heap = w.heap := by
  rw [open_terminal_init_eq]; split <;> rfl

theorem open_terminal_init_map (w : World) (e : Env) (t : Ty) :
    (open_terminal_init w e t).map = w.map := by
  rw [open_terminal_init_eq]; split <;> rfl

theorem open_terminal_init_files (w : World) (e : Env) (t : Ty) :
    (open_terminal_init w e t).files = w.files := by
  rw [open_terminal_init_eq]; split <;> rfl

theorem open_terminal_init_id {w : World} {s : String} (e : Env) (t : Ty) (h : w.id = some s) :
    (open_terminal_init w e t).id = some s := by
  rw [open_terminal_init_eq]
  split
  · exact h
  · simp [session_id_of_some e h]

theorem auto_file_shl_id {w : World} {s : String} (e : Env) (h : Nat) (x : Value)
    (hs : w.id = some s) : (auto_file_shl w e h x).id = some s := by
  rw [(touches_auto_file_shl w e h x).id]
  exact open_terminal_init_id e x.ty hs

theorem make_path_id {w : World} {s : String} (e : Env) (f : String) (hs : w.id = some s) :
    (make_path w e f).2.id = some s := by
  rw [make_path_snd, session_id_of_some e hs]
  split <;> rfl

theorem block_of_id {w : World} {s : String} (ndebug : Bool) (e : Env) (n : String)
    (hs : w.id = some s) : (block_of ndebug w e n).2.id = some s := by
  cases hl : w.map.lookup n with
  | some k => rw [block_of_found ndebug e hl]; exact hs
  | none =>
    rw [block_of_absent ndebug e hl]
    have : (ofstream_open (make_path w e n).2 e (make_path w e n).1).2.id = some s :=
      make_path_id e n hs
    split
    · exact this
    · exact this

theorem post_id {w : World} {s : String} (ndebug : Bool) (e : Env) (n : String) (v : Value)
    (hs : w.id = some s) : (post ndebug w e n v).2.id = some s := by
  have hb := block_of_id ndebug e n hs
  unfold post
  cases hr : block_of ndebug w e n with
  | mk o w1 =>
    rw [hr] at hb
    cases o with
    | returned h => exact auto_file_shl_id e h v hb
    | raised => exact hb
    | aborted => exact hb

theorem posts_id {s : String} (ndebug : Bool) (cs : List Call) {w : World}
    (hs : w.id = some s) : (posts ndebug w cs).2.id = some s := by
  induction cs generalizing w with
  | nil => exact hs
  | cons c cs ih =>
    have hp := post_id ndebug c.env c.name c.value hs
    unfold posts
    cases hr : post ndebug w c.env c.name c.value with
    | mk o w1 =>
      rw [hr] at hp
      cases o with
      | returned u => exact ih hp
      | raised => exact hp
      | aborted => exact hp

/-- C8: the first call of `session_id()`, whatever the generator gives, returns
the tag `multitail-` followed by the decimal rendering of a number from
100000000 to 999999999, that is nine decimal digits the first of which is not
zero, 19 characters in all; after any later sequence of posts `session_id()`
still returns that string and `make_path` builds its paths below the same
directory. -/
theorem session_id_memoized_well_formed (ndebug : Bool) (w : World) (e e' : Env)
    (cs : List Call) (f : String) (h : w.id = none) :
    (∃ n : Nat, 100000000 ≤ n ∧ n ≤ 999999999 ∧
      (session_id w e).1 = "multitail-" ++ toString n ∧
      (toString n).length = 9 ∧ (∀ c ∈ (toString n).data, c.isDigit = true) ∧
      (toString n).data.head? ≠ some '0') ∧
    (session_id w e).1.length = 19 ∧
    (session_id (session_id w e).2 e').1 = (session_id w e).1 ∧
    (session_id (posts ndebug (session_id w e).2 cs).2 e').1 = (session_id w e).1 ∧
    (make_path (posts ndebug (session_id w e).2 cs).2 e' f).1 =
      "/tmp/" ++ (session_id w e).1 ++ "/" ++ f := by
  have hr := uniform_int_distribution_range e.rd
  have hd := toString_nine_digits _ hr.1 hr.2
  have hid := posts_id ndebug cs (session_id_snd_id w e)
  refine ⟨⟨_, hr.1, hr.2, session_id_fst_of_none e h, hd⟩, ?_, ?_, ?_, ?_⟩
  · rw [session_id_fst_of_none e h, String.length_append, hd.1]
    rfl
  · rw [session_id_again]
  · rw [session_id_of_some e' hid]
  · rw [make_path_fst, session_id_of_some e' hid]

theorem session_id_memoized_well_formed_witness :
    start.id = none ∧
    (session_id start ⟨7, true, true, true⟩).1 = "multitail-100000007" ∧
    (session_id (posts false (session_id start ⟨7, true, true, true⟩).2
        [⟨⟨1, true, true, true⟩, "alpha", Value.int 42⟩]).2 ⟨2, true, true, true⟩).1 =
      (session_id start ⟨7, true, true, true⟩).1 :=
  ⟨rfl, by decide,
   (session_id_memoized_well_formed false start ⟨7, true, true, true⟩ ⟨2, true, true, true⟩
      [⟨⟨1, true, true, true⟩, "alpha", Value.int 42⟩] "alpha" rfl).2.2.2.1⟩

/-! ## The registry -/

theorem mem_of_lookup {l : List (String × Nat)} {k : String} {v : Nat}
    (h : l.lookup k = some v) : (k, v) ∈ l := by
  obtain ⟨l1, l2, rfl, _⟩ := List.lookup_eq_some_iff.mp h
  simp

theorem block_of_map {w : World} (ndebug : Bool) (e : Env) (n : String) :
    (block_of ndebug w e n).2.map = w.map ∨
      (block_of ndebug w e n).2.map = w.map ++ [(n, w.heap.length)] := by
  cases hl : w.map.lookup n with
  | some k => rw [block_of_found ndebug e hl]; exact Or.inl rfl
  | none =>
    rw [block_of_absent ndebug e hl]
    have hm : (ofstream_open (make_path w e n).2 e (make_path w e n).1).2.map = w.map := by
      simp only [ofstream_open]; rw [make_path_snd]; split <;> rfl
    have hh : (ofstream_open (make_path w e n).2 e (make_path w e n).1).2.heap = w.heap := by
      simp only [ofstream_open]; rw [make_path_snd]; split <;> rfl
    split
    · exact Or.inl hm
    · right
      simp only [hm, hh]

theorem block_of_keeps {w : World} (ndebug : Bool) (e : Env) (n : String)
    {p : String × Nat} (hp : p ∈ w.map) : p ∈ (block_of ndebug w e n).2.map := by
  rcases block_of_map ndebug e n (w := w) with h | h <;> rw [h]
  · exact hp
  · exact List.mem_append_left _ hp

theorem block_of_lookup {w w' : World} {ndebug : Bool} {e : Env} {n : String} {h : Nat}
    (hr : block_of ndebug w e n = (Outcome.returned h, w')) : w'.map.lookup n = some h := by
  cases hl : w.map.lookup n with
  | some k =>
    rw [block_of_found ndebug e hl] at hr
    cases hr
    exact hl
  | none =>
    obtain ⟨hh, _, hmap, _⟩ := block_of_absent_spec hl hr
    rw [hmap, List.lookup_append, hl, hh]
    simp

theorem inv_ptr_injective {w : World} (hi : Inv w) {n m : String} {h : Nat}
    (hn : (n, h) ∈ w.map) (hm : (m, h) ∈ w.map) : n = m := by
  obtain ⟨b1, hb1, hp1⟩ := hi.paths n h hn
  obtain ⟨b2, hb2, hp2⟩ := hi.paths m h hm
  rw [hb1] at hb2
  cases hb2
  exact path_in_injective w (hp1.symm.trans hp2)

theorem make_path_fst_of_inv {w : World} (hi : Inv w) (e : Env) {n : String} {h : Nat}
    (hn : (n, h) ∈ w.map) (f : String) : (make_path w e f).1 = path_in w f := by
  have hid : w.id ≠ none := hi.has_id (List.ne_nil_of_mem hn)
  rw [make_path_fst, path_in]
  rw [session_id_fst_of_ne_none e hid]
  simp [session_id_again]

theorem make_path_injective (w : World) (e : Env) {n m : String}
    (h : (make_path w e n).1 = (make_path w e m).1) : n = m := by
  rw [make_path_fst, make_path_fst] at h
  exact string_append_left_cancel h

/-- C3: for a consistent registry and names `n1 ≠ n2`, `block(n1)` and
`block(n2)` return different `block` objects, the paths `make_path` computes
for the two names are different strings, and these are the paths the two
objects carry.  `make_path` gives `/tmp/<session id>/<name>` and is injective
in the name within one session. -/
theorem distinct_names_distinct_channels (ndebug : Bool) (w w1 w2 : World) (e1 e2 e : Env)
    (n1 n2 : String) (h1 h2 : Nat) (hi : Inv w) (hne : n1 ≠ n2)
    (hr1 : block_of ndebug w e1 n1 = (Outcome.returned h1, w1))
    (hr2 : block_of ndebug w1 e2 n2 = (Outcome.returned h2, w2)) :
    h1 ≠ h2 ∧ (make_path w2 e n1).1 ≠ (make_path w2 e n2).1 ∧
    (∃ b1 b2, w2.heap[h1]? = some b1 ∧ w2.heap[h2]? = some b2 ∧
      b1._f._p = (make_path w2 e n1).1 ∧ b2._f._p = (make_path w2 e n2).1) ∧
    (make_path w2 e n1).1 = "/tmp/" ++ (session_id w2 e).1 ++ "/" ++ n1 ∧
    (∀ (u u' : World) (a a' : Env) (s m m' : String), u.id = some s → u'.id = some s →
      (make_path u a m).1 = (make_path u' a' m').1 → m = m') := by
  have hi2 : Inv w2 := inv_block_of (inv_block_of hi hr1) hr2
  have hm1 : (n1, h1) ∈ w2.map := by
    have := block_of_keeps ndebug e2 n2 (mem_of_lookup (block_of_lookup hr1))
    rw [hr2] at this
    exact this
  have hm2 : (n2, h2) ∈ w2.map := mem_of_lookup (block_of_lookup hr2)
  obtain ⟨b1, hb1, hp1⟩ := hi2.paths n1 h1 hm1
  obtain ⟨b2, hb2, hp2⟩ := hi2.paths n2 h2 hm2
  refine ⟨?_, ?_, ⟨b1, b2, hb1, hb2, ?_, ?_⟩, make_path_fst w2 e n1, ?_⟩
  · intro heq
    subst heq
    exact hne (inv_ptr_injective hi2 hm1 hm2)
  · intro heq
    exact hne (make_path_injective w2 e heq)
  · rw [hp1, make_path_fst_of_inv hi2 e hm1]
  · rw [hp2, make_path_fst_of_inv hi2 e hm1]
  · intro u u' a a' s m m' hu hu' heq
    rw [make_path_fst, make_path_fst, session_id_of_some a hu, session_id_of_some a' hu'] at heq
    exact string_append_left_cancel heq

theorem distinct_names_distinct_channels_witness :
    (0 : Nat) ≠ 1 ∧
    (make_path (block_of false (block_of false start ⟨0, true, true, true⟩ "alpha").2
        ⟨0, true, true, true⟩ "beta").2 ⟨0, true, true, true⟩ "alpha").1 ≠
    (make_path (block_of false (block_of false start ⟨0, true, true, true⟩ "alpha").2
        ⟨0, true, true, true⟩ "beta").2 ⟨0, true, true, true⟩ "beta").1 :=
  ⟨(distinct_names_distinct_channels false start
      (block_of false start ⟨0, true, true, true⟩ "alpha").2
      (block_of false (block_of false start ⟨0, true, true, true⟩ "alpha").2
        ⟨0, true, true, true⟩ "beta").2
      ⟨0, true, true, true⟩ ⟨0, true, true, true⟩ ⟨0, true, true, true⟩ "alpha" "beta" 0 1
      start_inv (by decide) (by decide) (by decide)).1,
   (distinct_names_distinct_channels false start
      (block_of false start ⟨0, true, true, true⟩ "alpha").2
      (block_of false (block_of false start ⟨0, true, true, true⟩ "alpha").2
        ⟨0, true, true, true⟩ "beta").2
      ⟨0, true, true, true⟩ ⟨0, true, true, true⟩ ⟨0, true, true, true⟩ "alpha" "beta" 0 1
      start_inv (by decide) (by decide) (by decide)).2.1⟩

theorem blocks_cons {ndebug : Bool} {w w' : World} {c : Env × String} {cs : List (Env × String)}
    {hs : List Nat} (hr : blocks ndebug w (c :: cs) = (Outcome.returned hs, w')) :
    ∃ h w1 hs1, block_of ndebug w c.1 c.2 = (Outcome.returned h, w1) ∧
      blocks ndebug w1 cs = (Outcome.returned hs1, w') ∧ hs = h :: hs1 := by
  unfold blocks at hr
  cases hb : block_of ndebug w c.1 c.2 with
  | mk o w1 =>
    rw [hb] at hr
    cases o with
    | returned h =>
      simp only at hr
      cases hb2 : blocks ndebug w1 cs with
      | mk o2 w2 =>
        rw [hb2] at hr
        cases o2 with
        | returned hs1 =>
          simp only [Prod.mk.injEq, Outcome.returned.injEq] at hr
          obtain ⟨h1, h2⟩ := hr
          subst h1 h2
          exact ⟨h, w1, hs1, rfl, hb2, rfl⟩
        | raised => cases hr
        | aborted => cases hr
    | raised => cases hr
    | aborted => cases hr

theorem inv_blocks {ndebug : Bool} (cs : List (Env × String)) {w w' : World} {hs : List Nat}
    (hi : Inv w) (hr : blocks ndebug w cs = (Outcome.returned hs, w')) : Inv w' := by
  induction cs generalizing w hs with
  | nil =>
    simp only [blocks, Prod.mk.injEq] at hr
    rw [← hr.2]
    exact hi
  | cons c cs ih =>
    obtain ⟨h, w1, hs1, hb, hb2, _⟩ := blocks_cons hr
    exact ih (inv_block_of hi hb) hb2

theorem block_of_keeps_lookup {w : World} (ndebug : Bool) (e : Env) (n : String)
    {m : String} {k : Nat} (hl : w.map.lookup m = some k) :
    (block_of ndebug w e n).2.map.lookup m = some k := by
  rcases block_of_map ndebug e n (w := w) with h | h <;> rw [h]
  · exact hl
  · rw [List.lookup_append, hl]
    rfl

theorem blocks_keeps_lookup {ndebug : Bool} (cs : List (Env × String)) {w w' : World}
    {hs : List Nat} (hr : blocks ndebug w cs = (Outcome.returned hs, w'))
    {m : String} {k : Nat} (hl : w.map.lookup m = some k) : w'.map.lookup m = some k := by
  induction cs generalizing w hs with
  | nil =>
    simp only [blocks, Prod.mk.injEq] at hr
    rw [← hr.2]
    exact hl
  | cons c cs ih =>
    obtain ⟨h, w1, hs1, hb, hb2, _⟩ := blocks_cons hr
    have := block_of_keeps_lookup ndebug c.1 c.2 hl
    rw [hb] at this
    exact ih hb2 this

theorem blocks_lookup {ndebug : Bool} (cs : List (Env × String)) {w w' : World}
    {hs : List Nat} (hr : blocks ndebug w cs = (Outcome.returned hs, w')) :
    ∀ (i : Nat) (c : Env × String), cs[i]? = some c →
      ∃ h, hs[i]? = some h ∧ w'.map.lookup c.2 = some h := by
  induction cs generalizing w hs with
  | nil =>
    intro i c hc
    simp at hc
  | cons c0 cs ih =>
    obtain ⟨h, w1, hs1, hb, hb2, rfl⟩ := blocks_cons hr
    intro i c hc
    cases i with
    | zero =>
      simp only [List.getElem?_cons_zero, Option.some.injEq] at hc
      subst hc
      exact ⟨h, by simp, blocks_keeps_lookup cs hb2 (block_of_lookup hb)⟩
    | succ i =>
      simp only [List.getElem?_cons_succ] at hc ⊢
      exact ih hb2 i c hc

theorem inv_opened_count {w : World} (hi : Inv w) {n : String} (hn : n ∈ keys w) :
    (open_paths w.trace).count (path_in w n) = 1 := by
  rw [hi.opened]
  have hmap : w.map.map (fun nh => path_in w nh.1) = (keys w).map (path_in w) := by
    simp [keys, List.map_map, Function.comp_def]
  rw [hmap]
  apply List.count_eq_one_of_mem
  · exact List.Nodup.map (fun a b hab => path_in_injective w hab) hi.keys_nodup
  · exact List.mem_map.mpr ⟨n, hn, rfl⟩

theorem keys_of_lookup {w : World} {n : String} {h : Nat} (hl : w.map.lookup n = some h) :
    n ∈ keys w :=
  List.mem_map.mpr ⟨(n, h), mem_of_lookup hl, rfl⟩

theorem opens_append (xs ys : List Event) : opens (xs ++ ys) = opens xs ++ opens ys := by
  induction xs with
  | nil => rfl
  | cons x xs ih => cases x <;> simp [opens, ih]

theorem opens_map_fst (tr : List Event) : (opens tr).map Prod.fst = open_paths tr := by
  induction tr with
  | nil => rfl
  | cons x xs ih => cases x <;> simp [opens, open_paths, ih]

theorem mem_opens {tr : List Event} {p : String} {ok : Bool} :
    (p, ok) ∈ opens tr ↔ Event.open_file p ok ∈ tr := by
  induction tr with
  | nil => simp [opens]
  | cons x xs ih => cases x <;> simp [opens, ih]

theorem filter_fst_singleton {l : List (String × Bool)} (hnd : (l.map Prod.fst).Nodup)
    {p : String} {ok : Bool} (hm : (p, ok) ∈ l) :
    l.filter (fun x => x.1 == p) = [(p, ok)] := by
  induction l with
  | nil => cases hm
  | cons a l ih =>
    simp only [List.map_cons, List.nodup_cons] at hnd
    rcases List.mem_cons.mp hm with rfl | hm
    · have : l.filter (fun x => x.1 == p) = [] := by
        rw [List.filter_eq_nil_iff]
        intro x hx hp
        simp only [beq_iff_eq] at hp
        exact hnd.1 (List.mem_map.mpr ⟨x, hx, hp⟩)
      simp [List.filter_cons, this]
    · have hne : a.1 ≠ p := by
        intro heq
        exact hnd.1 (List.mem_map.mpr ⟨(p, ok), hm, heq.symm⟩)
      have hb : (a.1 == p) = false := by simpa using hne
      rw [List.filter_cons, hb]
      exact ih hnd.2 hm

theorem inv_opens_nodup {w : World} (hi : Inv w) : ((opens w.trace).map Prod.fst).Nodup := by
  rw [opens_map_fst, hi.opened]
  have hmap : w.map.map (fun nh => path_in w nh.1) = (keys w).map (path_in w) := by
    simp [keys, List.map_map, Function.comp_def]
  rw [hmap]
  exact List.Nodup.map (fun a b hab => path_in_injective w hab) hi.keys_nodup

theorem inv_opened_mem {w : World} (hi : Inv w) {n : String} (hn : n ∈ keys w) :
    ∃ ok, (path_in w n, ok) ∈ opens w.trace := by
  have h1 : path_in w n ∈ (opens w.trace).map Prod.fst := by
    rw [opens_map_fst, hi.opened]
    obtain ⟨p, hp, rfl⟩ := List.mem_map.mp hn
    exact List.mem_map.mpr ⟨p, hp, rfl⟩
  obtain ⟨⟨p, ok⟩, hmem, hp⟩ := List.mem_map.mp h1
  simp only at hp
  subst hp
  exact ⟨ok, hmem⟩

theorem block_of_all_open {w w' : World} {e : Env} {n : String} {h : Nat}
    (hr : block_of false w e n = (Outcome.returned h, w'))
    (hall : ∀ x ∈ opens w.trace, x.2 = true) : ∀ x ∈ opens w'.trace, x.2 = true := by
  cases hl : w.map.lookup n with
  | some k =>
    rw [block_of_found false e hl] at hr
    cases hr
    exact hall
  | none =>
    obtain ⟨_, _, _, _, _, ok, _, _, hok, _, pre, htr, hpre⟩ := block_of_absent_spec hl hr
    have hok2 : ok = true := by
      cases ok with
      | true => rfl
      | false => exact absurd (hok rfl) (by decide)
    subst hok2
    intro x hx
    rw [htr, opens_append, opens_append] at hx
    simp only [opens, List.mem_append, List.mem_singleton] at hx
    rcases hx with (hx | hx) | hx
    · exact hall x hx
    · rcases hpre with rfl | rfl <;> simp [opens] at hx
    · rw [hx]

theorem blocks_all_open (cs : List (Env × String)) {w w' : World} {hs : List Nat}
    (hr : blocks false w cs = (Outcome.returned hs, w'))
    (hall : ∀ x ∈ opens w.trace, x.2 = true) : ∀ x ∈ opens w'.trace, x.2 = true := by
  induction cs generalizing w hs with
  | nil =>
    simp only [blocks, Prod.mk.injEq] at hr
    rw [← hr.2]
    exact hall
  | cons c cs ih =>
    obtain ⟨h, w1, hs1, hb, hb2, _⟩ := blocks_cons hr
    exact ih hb2 (block_of_all_open hb hall)

/-- C2 (as the code has it): in a consistent registry, `block(n)` for a
registered `n` returns the registered pointer and changes nothing (no `block`
is constructed, no file is opened); for an absent `n` a call that returns has
allocated one `block`, inserted it under `n` and opened one stream, on the
path of `n`, which has created the file, empty, when the opening succeeded and
has left the files as they were when it failed; in a build with assertions it
has succeeded.  Hence after any sequence of calls that return, calls with equal
names have returned the same pointer, there are as many `block` objects and
opened streams as registered names, exactly one stream was opened on the path
of each name called, and the file of that name exists when that opening
succeeded, which it always has in a build with assertions. -/
theorem registry_one_channel_per_name (ndebug : Bool) (w w' : World) (e : Env) (n : String)
    (cs : List (Env × String)) (hs : List Nat) (hi : Inv w)
    (hr : blocks ndebug w cs = (Outcome.returned hs, w')) :
    (∀ h, w.map.lookup n = some h → block_of ndebug w e n = (Outcome.returned h, w)) ∧
    (w.map.lookup n = none → ∀ h w1, block_of ndebug w e n = (Outcome.returned h, w1) →
      h = w.heap.length ∧ w1.heap.length = w.heap.length + 1 ∧
      w1.map = w.map ++ [(n, h)] ∧
      ∃ ok, opens w1.trace = opens w.trace ++ [(path_in w1 n, ok)] ∧
        (ok = true → read_file w1 (path_in w1 n) = some "") ∧
        (ok = false → w1.files = w.files) ∧
        (ndebug = false → ok = true)) ∧
    (∀ (i j : Nat) (c1 c2 : Env × String), cs[i]? = some c1 → cs[j]? = some c2 → c1.2 = c2.2 →
      ∃ h, hs[i]? = some h ∧ hs[j]? = some h) ∧
    w'.heap.length = (keys w').length ∧
    (opens w'.trace).length = (keys w').length ∧
    (∀ c ∈ cs, c.2 ∈ keys w' ∧
      ∃ ok, (opens w'.trace).filter (fun x => x.1 == path_in w' c.2) = [(path_in w' c.2, ok)] ∧
        (ok = true → (read_file w' (path_in w' c.2)).isSome = true)) ∧
    (ndebug = false → (∀ x ∈ opens w.trace, x.2 = true) → ∀ x ∈ opens w'.trace, x.2 = true) := by
  have hi' : Inv w' := inv_blocks cs hi hr
  refine ⟨fun h hl => block_of_found ndebug e hl, ?_, ?_, ?_, ?_, ?_, ?_⟩
  · intro hl h w1 hb
    obtain ⟨hh, hid, hmap, _, _, ok, hheap, _, hok, hfiles, pre, htr, hpre⟩ :=
      block_of_absent_spec hl hb
    refine ⟨hh, by rw [hheap]; simp, by rw [hmap, hh], ok, ?_, ?_, ?_, ?_⟩
    · rw [htr, path_in_some hid, opens_append, opens_append]
      rcases hpre with rfl | rfl <;> simp [opens]
    · intro hok1
      rw [path_in_some hid, read_file, hfiles, hok1]
      simp
    · intro hok1
      rw [hfiles, hok1]
      simp
    · intro hnd
      cases ok with
      | true => rfl
      | false => rw [hok rfl] at hnd; cases hnd
  · intro i j c1 c2 h1 h2 heq
    obtain ⟨k1, hk1, hl1⟩ := blocks_lookup cs hr i c1 h1
    obtain ⟨k2, hk2, hl2⟩ := blocks_lookup cs hr j c2 h2
    rw [heq, hl2] at hl1
    simp only [Option.some.injEq] at hl1
    subst hl1
    exact ⟨k2, hk1, hk2⟩
  · have := congrArg List.length hi'.ptrs
    simp only [List.length_map, List.length_range] at this
    simp [keys, this]
  · have := congrArg List.length (opens_map_fst w'.trace)
    rw [hi'.opened] at this
    simpa [keys] using this
  · intro c hc
    obtain ⟨i, hlt, hget⟩ := List.getElem_of_mem hc
    obtain ⟨k, _, hl⟩ := blocks_lookup cs hr i c (by rw [List.getElem?_eq_getElem hlt, hget])
    obtain ⟨ok, hmem⟩ := inv_opened_mem hi' (keys_of_lookup hl)
    refine ⟨keys_of_lookup hl, ok, filter_fst_singleton (inv_opens_nodup hi') hmem, ?_⟩
    intro hok
    subst hok
    exact hi'.created _ (mem_opens.mp hmem)
  · intro hnd hall
    subst hnd
    exact blocks_all_open cs hr hall

theorem registry_one_channel_per_name_witness :
    (blocks false start [(⟨0, true, true, true⟩, "alpha"), (⟨1, true, true, true⟩, "beta"),
        (⟨2, true, true, true⟩, "alpha")]).1 = Outcome.returned [0, 1, 0] ∧
    (blocks false start [(⟨0, true, true, true⟩, "alpha"), (⟨1, true, true, true⟩, "beta"),
        (⟨2, true, true, true⟩, "alpha")]).2.heap.length = 2 ∧
    (opens (blocks false start [(⟨0, true, true, true⟩, "alpha"),
        (⟨1, true, true, true⟩, "beta"), (⟨2, true, true, true⟩, "alpha")]).2.trace).length =
      (keys (blocks false start [(⟨0, true, true, true⟩, "alpha"),
        (⟨1, true, true, true⟩, "beta"), (⟨2, true, true, true⟩, "alpha")]).2).length :=
  ⟨by decide, by decide,
    (registry_one_channel_per_name false start
      (blocks false start [(⟨0, true, true, true⟩, "alpha"), (⟨1, true, true, true⟩, "beta"),
        (⟨2, true, true, true⟩, "alpha")]).2 ⟨0, true, true, true⟩ "alpha"
      [(⟨0, true, true, true⟩, "alpha"), (⟨1, true, true, true⟩, "beta"),
        (⟨2, true, true, true⟩, "alpha")] [0, 1, 0] start_inv (by decide)).2.2.2.2.1⟩

/-- C2, counterexample: in a build with `NDEBUG`, when the session directory
cannot be made, `block("alpha")` returns a `block` registered under `alpha`
and no backing file has been created. -/
theorem channel_without_backing_file :
    (blocks true start [(⟨0, false, true, true⟩, "alpha")]).1 = Outcome.returned [0] ∧
    keys (blocks true start [(⟨0, false, true, true⟩, "alpha")]).2 = ["alpha"] ∧
    (blocks true start [(⟨0, false, true, true⟩, "alpha")]).2.files = [] ∧
    read_file (blocks true start [(⟨0, false, true, true⟩, "alpha")]).2
      "/tmp/multitail-100000000/alpha" = none := by
  decide

/-! ## What a call leaves alone -/

theorem auto_file_shl_map (w : World) (e : Env) (h : Nat) (x : Value) :
    (auto_file_shl w e h x).map = w.map := by
  rw [(touches_auto_file_shl w e h x).map, open_terminal_init_map]

theorem post_found {w : World} (ndebug : Bool) (e : Env) {n : String} (v : Value) {h : Nat}
    (hl : w.map.lookup n = some h) :
    post ndebug w e n v = (Outcome.returned (), auto_file_shl w e h v) := by
  simp only [post, block_of_found ndebug e hl, block_shl]

theorem post_after_block_of {w w1 : World} {ndebug : Bool} {e : Env} {n : String} {h : Nat}
    (v : Value) (hr : block_of ndebug w e n = (Outcome.returned h, w1)) :
    post ndebug w e n v = post ndebug w1 e n v := by
  rw [post_found ndebug e v (block_of_lookup hr)]
  simp only [post, hr, block_shl]

/-- The effects of one `operator<<` on an `auto_file`: the viewer command when
this instantiation is entered for the first time, then only writes. -/
theorem auto_file_shl_trace (w : World) (e : Env) (h : Nat) (x : Value) :
    ∃ L W, (auto_file_shl w e h x).trace = w.trace ++ L ++ W ∧
      (x.ty ∈ w.open_terminal ∧ L = [] ∧ (auto_file_shl w e h x).open_terminal = w.open_terminal ∨
       x.ty ∉ w.open_terminal ∧ L = [Event.system (viewer_cmdline (session_id w e).1)] ∧
        (auto_file_shl w e h x).open_terminal = x.ty :: w.open_terminal) ∧
      (∀ ev ∈ W, is_write ev = true) := by
  have ht := touches_auto_file_shl w e h x
  obtain ⟨W, htr, hW⟩ := ht.trace
  rw [ht.open_terminal, htr, open_terminal_init_eq]
  by_cases hmem : x.ty ∈ w.open_terminal
  · rw [if_pos hmem]
    exact ⟨[], W, by simp, Or.inl ⟨hmem, rfl, rfl⟩, hW⟩
  · rw [if_neg hmem]
    exact ⟨_, W, rfl, Or.inr ⟨hmem, rfl, rfl⟩, hW⟩

/-- The effects of `block(name)`: at most the `mkdir` command and one opening
of a stream, never the viewer command and never a write. -/
theorem block_of_trace (ndebug : Bool) (w : World) (e : Env) (n : String) :
    (block_of ndebug w e n).2.open_terminal = w.open_terminal ∧
    ∃ evs, (block_of ndebug w e n).2.trace = w.trace ++ evs ∧
      ∀ ev ∈ evs, is_launch ev = false ∧ is_write ev = false := by
  cases hl : w.map.lookup n with
  | some k =>
    rw [block_of_found ndebug e hl]
    exact ⟨rfl, [], by simp, by simp⟩
  | none =>
    rw [block_of_absent ndebug e hl]
    have hot : (ofstream_open (make_path w e n).2 e (make_path w e n).1).2.open_terminal =
        w.open_terminal := by
      simp only [ofstream_open]; rw [make_path_snd]; split <;> rfl
    have htr : ∃ evs, (ofstream_open (make_path w e n).2 e (make_path w e n).1).2.trace =
        w.trace ++ evs ∧ ∀ ev ∈ evs, is_launch ev = false ∧ is_write ev = false := by
      simp only [ofstream_open]
      rw [make_path_snd]
      split
      · refine ⟨[_], rfl, ?_⟩
        intro ev hev
        simp only [List.mem_singleton] at hev
        subst hev
        exact ⟨rfl, rfl⟩
      · refine ⟨[_, _], by simp only [List.append_assoc, List.singleton_append]; rfl, ?_⟩
        intro ev hev
        simp only [List.mem_cons, List.mem_singleton, List.not_mem_nil, or_false] at hev
        rcases hev with rfl | rfl
        · exact ⟨mkdir_not_launch _, rfl⟩
        · exact ⟨rfl, rfl⟩
    split
    · exact ⟨hot, htr⟩
    · exact ⟨hot, htr⟩

theorem lpw_append_of_launched {tr : List Event} (evs : List Event)
    (h : ∃ ev ∈ tr, is_launch ev = true) :
    launch_precedes_writes (tr ++ evs) = launch_precedes_writes tr := by
  induction tr with
  | nil =>
    obtain ⟨ev, hev, _⟩ := h
    cases hev
  | cons a tr ih =>
    unfold launch_precedes_writes at ih ⊢
    by_cases ha : is_launch a = true
    · simp [List.takeWhile_cons, ha]
    · obtain ⟨ev, hev, hl⟩ := h
      have hev2 : ev ∈ tr := by
        rcases List.mem_cons.mp hev with rfl | hm
        · exact absurd hl ha
        · exact hm
      simp only [Bool.not_eq_true] at ha
      simp only [List.cons_append, List.takeWhile_cons, ha, Bool.not_false, if_true,
        List.all_cons]
      rw [ih ⟨ev, hev2, hl⟩]

theorem lpw_append_no_write {tr evs : List Event} (h : launch_precedes_writes tr = true)
    (hevs : ∀ ev ∈ evs, is_write ev = false) : launch_precedes_writes (tr ++ evs) = true := by
  induction tr with
  | nil =>
    unfold launch_precedes_writes
    rw [List.all_eq_true]
    intro ev hev
    have := hevs ev (List.takeWhile_subset _ hev)
    simp [this]
  | cons a tr ih =>
    unfold launch_precedes_writes at ih h ⊢
    by_cases ha : is_launch a = true
    · simp [List.takeWhile_cons, ha]
    · simp only [Bool.not_eq_true] at ha
      simp only [List.cons_append, List.takeWhile_cons, ha, Bool.not_false, if_true,
        List.all_cons, Bool.and_eq_true] at h ⊢
      exact ⟨h.1, ih h.2⟩

theorem lpw_append_launch {tr : List Event} {ev : Event} (rest : List Event)
    (h : launch_precedes_writes tr = true) (hev : is_launch ev = true) :
    launch_precedes_writes (tr ++ ev :: rest) = true := by
  induction tr with
  | nil =>
    unfold launch_precedes_writes
    simp [List.takeWhile_cons, hev]
  | cons a tr ih =>
    unfold launch_precedes_writes at ih h ⊢
    by_cases ha : is_launch a = true
    · simp [List.takeWhile_cons, ha]
    · simp only [Bool.not_eq_true] at ha
      simp only [List.cons_append, List.takeWhile_cons, ha, Bool.not_false, if_true,
        List.all_cons, Bool.and_eq_true] at h ⊢
      exact ⟨h.1, ih h.2⟩

theorem write_not_launch {p bytes : String} : is_launch (Event.write p bytes) = false := rfl

theorem order_block_of {w : World} (ndebug : Bool) (e : Env) (n : String)
    (h1 : w.open_terminal ≠ [] → ∃ ev ∈ w.trace, is_launch ev = true)
    (h2 : launch_precedes_writes w.trace = true) :
    ((block_of ndebug w e n).2.open_terminal ≠ [] →
      ∃ ev ∈ (block_of ndebug w e n).2.trace, is_launch ev = true) ∧
    launch_precedes_writes (block_of ndebug w e n).2.trace = true := by
  obtain ⟨hot, evs, htr, hevs⟩ := block_of_trace ndebug w e n
  rw [hot, htr]
  constructor
  · intro hne
    obtain ⟨ev, hev, hl⟩ := h1 hne
    exact ⟨ev, List.mem_append_left _ hev, hl⟩
  · exact lpw_append_no_write h2 (fun ev hev => (hevs ev hev).2)

theorem order_auto_file_shl {w : World} (e : Env) (h : Nat) (x : Value)
    (h1 : w.open_terminal ≠ [] → ∃ ev ∈ w.trace, is_launch ev = true)
    (h2 : launch_precedes_writes w.trace = true) :
    ((auto_file_shl w e h x).open_terminal ≠ [] →
      ∃ ev ∈ (auto_file_shl w e h x).trace, is_launch ev = true) ∧
    launch_precedes_writes (auto_file_shl w e h x).trace = true := by
  obtain ⟨L, W, htr, hL, hW⟩ := auto_file_shl_trace w e h x
  rw [htr]
  rcases hL with ⟨hmem, rfl, hot⟩ | ⟨hmem, rfl, hot⟩
  · have hl : ∃ ev ∈ w.trace, is_launch ev = true := h1 (List.ne_nil_of_mem hmem)
    constructor
    · intro _
      obtain ⟨ev, hev, hlev⟩ := hl
      exact ⟨ev, by simp [hev], hlev⟩
    · rw [List.append_nil, lpw_append_of_launched W hl]
      exact h2
  · constructor
    · intro _
      exact ⟨Event.system (viewer_cmdline (session_id w e).1), by simp, viewer_is_launch _⟩
    · rw [List.append_assoc]
      exact lpw_append_launch W h2 (viewer_is_launch _)

theorem order_post {w : World} (ndebug : Bool) (e : Env) (n : String) (v : Value)
    (h1 : w.open_terminal ≠ [] → ∃ ev ∈ w.trace, is_launch ev = true)
    (h2 : launch_precedes_writes w.trace = true) :
    ((post ndebug w e n v).2.open_terminal ≠ [] →
      ∃ ev ∈ (post ndebug w e n v).2.trace, is_launch ev = true) ∧
    launch_precedes_writes (post ndebug w e n v).2.trace = true := by
  have hb := order_block_of ndebug e n h1 h2
  unfold post
  cases hr : block_of ndebug w e n with
  | mk o w1 =>
    rw [hr] at hb
    cases o with
    | returned h => exact order_auto_file_shl e h v hb.1 hb.2
    | raised => exact hb
    | aborted => exact hb

theorem order_posts (ndebug : Bool) (cs : List Call) {w : World}
    (h1 : w.open_terminal ≠ [] → ∃ ev ∈ w.trace, is_launch ev = true)
    (h2 : launch_precedes_writes w.trace = true) :
    ((posts ndebug w cs).2.open_terminal ≠ [] →
      ∃ ev ∈ (posts ndebug w cs).2.trace, is_launch ev = true) ∧
    launch_precedes_writes (posts ndebug w cs).2.trace = true := by
  induction cs generalizing w with
  | nil => exact ⟨h1, h2⟩
  | cons c cs ih =>
    have hp := order_post ndebug c.env c.name c.value h1 h2
    unfold posts
    cases hr : post ndebug w c.env c.name c.value with
    | mk o w1 =>
      rw [hr] at hp
      cases o with
      | returned u => exact ih hp.1 hp.2
      | raised => exact hp
      | aborted => exact hp

theorem launches_of_trace {w w' : World} {evs : List Event} (h : w'.trace = w.trace ++ evs) :
    launches w' = launches w + (evs.filter is_launch).length := by
  simp [launches, h]

theorem writes_no_launch {W : List Event} (h : ∀ ev ∈ W, is_write ev = true) :
    W.filter is_launch = [] := by
  rw [List.filter_eq_nil_iff]
  intro ev hev
  have := h ev hev
  cases ev with
  | system c => cases this
  | open_file p ok => cases this
  | write p bytes => simp [is_launch]

theorem block_of_launches (ndebug : Bool) (w : World) (e : Env) (n : String) :
    launches (block_of ndebug w e n).2 = launches w := by
  obtain ⟨_, evs, htr, hevs⟩ := block_of_trace ndebug w e n
  rw [launches_of_trace htr]
  have : evs.filter is_launch = [] := by
    rw [List.filter_eq_nil_iff]
    intro ev hev
    simp [(hevs ev hev).1]
  rw [this]
  rfl

theorem first_post_launches (ndebug : Bool) (e : Env) (n : String) (v : Value) :
    launches (post ndebug start e n v).2 =
      if (post ndebug start e n v).1 = Outcome.returned () then 1 else 0 := by
  have hb := block_of_launches ndebug start e n
  have hot := (block_of_trace ndebug start e n).1
  unfold post
  cases hr : block_of ndebug start e n with
  | mk o w1 =>
    rw [hr] at hb hot
    cases o with
    | returned h =>
      simp only [block_shl]
      obtain ⟨L, W, htr, hL, hW⟩ := auto_file_shl_trace w1 e h v
      simp only at hot hb
      rw [List.append_assoc] at htr
      rw [launches_of_trace htr, hb]
      rcases hL with ⟨hmem, _, _⟩ | ⟨_, rfl, _⟩
      · rw [hot] at hmem
        cases hmem
      · simp [List.filter_append, List.filter_cons, viewer_is_launch, writes_no_launch hW,
          launches, start]
    | raised => exact hb
    | aborted => exact hb

/-- C9 (as the code has it): the viewer is launched by the first write
attempt.  A process that has not posted has not launched it; `block(name)`
alone never launches it; in every execution no bytes reach a file before the
first launch; and the first post has launched it exactly when it returns,
whatever the answers of the file system, so also when its write fails. -/
theorem viewer_launched_by_first_write_attempt (ndebug : Bool) (w : World) (e : Env)
    (n : String) (v : Value) (cs : List Call) :
    launches start = 0 ∧
    launches (block_of ndebug w e n).2 = launches w ∧
    launch_precedes_writes (posts ndebug start cs).2.trace = true ∧
    launches (post ndebug start e n v).2 =
      (if (post ndebug start e n v).1 = Outcome.returned () then 1 else 0) :=
  ⟨rfl, block_of_launches ndebug w e n,
   (order_posts ndebug cs (w := start) (fun h => absurd rfl h) rfl).2,
   first_post_launches ndebug e n v⟩

/-- C9, counterexample: the only write attempt of the process fails (the flush
does not reach the disk, nothing is written), and the viewer has been launched
all the same. -/
theorem viewer_launched_though_write_failed :
    launches (post false start ⟨0, true, true, false⟩ "alpha" (Value.int 42)).2 = 1 ∧
    (post false start ⟨0, true, true, false⟩ "alpha" (Value.int 42)).2.trace.filter is_write = [] ∧
    read_file (post false start ⟨0, true, true, false⟩ "alpha" (Value.int 42)).2
      "/tmp/multitail-100000000/alpha" = some "" := by
  decide

/-- C4, the failing input: an integer then a string posted to one channel run
the viewer command twice, once per instantiation of `operator<<`. -/
theorem viewer_launched_once_per_instantiation :
    launches (posts false start [⟨⟨0, true, true, true⟩, "alpha", Value.int 42⟩,
      ⟨⟨0, true, true, true⟩, "alpha", Value.str "x"⟩]).2 = 2 := by
  decide

/-! ## Failures of the file system -/

/-- No path of `post` hands an error to its caller. -/
theorem post_never_raises (ndebug : Bool) (w : World) (e : Env) (n : String) (v : Value) :
    (post ndebug w e n v).1 ≠ Outcome.raised := by
  have hb : (block_of ndebug w e n).1 ≠ Outcome.raised := by
    cases hl : w.map.lookup n with
    | some k => rw [block_of_found ndebug e hl]; simp
    | none =>
      rw [block_of_absent ndebug e hl]
      split <;> simp
  unfold post
  cases hr : block_of ndebug w e n with
  | mk o w1 =>
    rw [hr] at hb
    cases o with
    | returned h => simp
    | raised => exact absurd rfl hb
    | aborted => simp

/-- The first stream of a process cannot be opened when the session directory
could not be made. -/
theorem open_fails_without_directory (e : Env) (n : String) (h : e.mkdir_ok = false) :
    (ofstream_open (make_path start e n).2 e (make_path start e n).1).1.fail = true ∧
    (ofstream_open (make_path start e n).2 e (make_path start e n).1).2.files = [] ∧
    (ofstream_open (make_path start e n).2 e (make_path start e n).1).2.heap = [] := by
  simp only [ofstream_open]
  rw [make_path_snd]
  simp [start, h]

/-- In the error state the stream operations of `operator<<` do nothing. -/
theorem auto_file_shl_failed {w : World} (e : Env) {h : Nat} (x : Value) {b : block}
    (hb : w.heap[h]? = some b) (hfail : b._f._s.fail = true) :
    auto_file_shl w e h x = open_terminal_init w e x.ty := by
  have hb0 : (open_terminal_init w e x.ty).heap[h]? = some b := by
    rw [open_terminal_init_heap]; exact hb
  unfold auto_file_shl
  generalize open_terminal_init w e x.ty = w0 at hb0
  simp [stream_insert, stream_flush, hb0, hfail]

/-- C5 (as the code has it): when the session directory cannot be made, the
first `post` reports nothing to its caller.  Built with assertions, the
`assert` in the constructor of `auto_file` aborts the process; built with
`NDEBUG`, `post` returns normally and the value is recorded nowhere: no file
exists afterwards and no write has happened. -/
theorem mkdir_failure_aborts_or_drops (e : Env) (n : String) (v : Value)
    (h : e.mkdir_ok = false) :
    (post false start e n v).1 = Outcome.aborted ∧
    (post true start e n v).1 = Outcome.returned () ∧
    (post true start e n v).2.files = [] ∧
    (post true start e n v).2.trace.filter is_write = [] ∧
    ∀ ndebug, (post ndebug start e n v).1 ≠ Outcome.raised := by
  obtain ⟨hf, hfiles, hheap⟩ := open_fails_without_directory e n h
  have hl : start.map.lookup n = none := rfl
  have h1 : block_of false start e n =
      (Outcome.aborted, (ofstream_open (make_path start e n).2 e (make_path start e n).1).2) := by
    rw [block_of_absent false e hl, hf]
    rfl
  have h2 : ∃ w1, block_of true start e n = (Outcome.returned 0, w1) := by
    rw [block_of_absent true e hl, hf, hheap]
    exact ⟨_, rfl⟩
  obtain ⟨w1, h2⟩ := h2
  obtain ⟨_, _, _, hot1, _, ok, hheap1, hokeq, _, hfiles1, pre, htr1, hpre⟩ :=
    block_of_absent_spec hl h2
  have hok : ok = false := by
    rw [hokeq, make_path_snd]
    simp [start, h]
  subst hok
  have hb : w1.heap[0]? = some ⟨false, ⟨"/tmp/" ++ (session_id start e).1 ++ "/" ++ n,
      ⟨true, "", 0⟩, false⟩⟩ := by
    rw [hheap1]
    rfl
  have hshl := auto_file_shl_failed e v hb rfl
  refine ⟨by simp only [post, h1], by simp only [post, h2], ?_, ?_,
    fun ndebug => post_never_raises ndebug start e n v⟩
  · simp only [post, h2, block_shl, hshl, open_terminal_init_files, hfiles1]
    rfl
  · simp only [post, h2, block_shl]
    rw [hshl, open_terminal_init_eq]
    have hpw : pre.filter is_write = [] := by
      rcases hpre with rfl | rfl <;> rfl
    split
    · rw [htr1]
      simp [List.filter_append, hpw, is_write, start]
    · simp only [htr1]
      simp [List.filter_append, hpw, is_write, start]

theorem mkdir_failure_aborts_or_drops_witness :
    (post false start ⟨0, false, true, true⟩ "alpha" (Value.int 42)).1 = Outcome.aborted ∧
    (post true start ⟨0, false, true, true⟩ "alpha" (Value.int 42)).1 = Outcome.returned () ∧
    (post true start ⟨0, false, true, true⟩ "alpha" (Value.int 42)).2.files = [] :=
  ⟨(mkdir_failure_aborts_or_drops ⟨0, false, true, true⟩ "alpha" (Value.int 42) rfl).1,
   (mkdir_failure_aborts_or_drops ⟨0, false, true, true⟩ "alpha" (Value.int 42) rfl).2.1,
   (mkdir_failure_aborts_or_drops ⟨0, false, true, true⟩ "alpha" (Value.int 42) rfl).2.2.1⟩

/-- C5, counterexample: the session directory cannot be made; the first `post`
raises nothing: with assertions it aborts the process, with `NDEBUG` it returns
normally and the file of the channel does not exist. -/
theorem mkdir_failure_not_reported :
    (post false start ⟨0, false, true, true⟩ "alpha" (Value.int 42)).1 ≠ Outcome.raised ∧
    (post false start ⟨0, false, true, true⟩ "alpha" (Value.int 42)).1 = Outcome.aborted ∧
    (post true start ⟨0, false, true, true⟩ "alpha" (Value.int 42)).1 = Outcome.returned () ∧
    read_file (post true start ⟨0, false, true, true⟩ "alpha" (Value.int 42)).2
      "/tmp/multitail-100000000/alpha" = none := by
  decide

theorem stream_insert_failed {w : World} (e : Env) {h : Nat} (t : String) {b : block}
    (hb : w.heap[h]? = some b) (hfail : b._f._s.fail = true) : stream_insert w e h t = w := by
  simp [stream_insert, hb, hfail]

theorem stream_flush_failed {w : World} (e : Env) {h : Nat} {b : block}
    (hb : w.heap[h]? = some b) (hfail : b._f._s.fail = true) : stream_flush w e h = w := by
  simp [stream_flush, hb, hfail]

/-- An insertion when writes fail: the stream enters the error state or the
bytes are in its buffer. -/
theorem stream_insert_nok {w : World} (e : Env) {h : Nat} (t : String) {b : block}
    (hb : w.heap[h]? = some b) (hgood : b._f._s.fail = false) (hok : e.flush_ok = false) :
    ∃ s, (stream_insert w e h t).heap[h]? = some { b with _f := { b._f with _s := s } } ∧
      (s.fail = true ∨ (s.fail = false ∧ s.buf = b._f._s.buf ++ t)) := by
  have hlt := getElem?_lt hb
  unfold stream_insert
  simp only [hb, hgood, Bool.false_eq_true, if_false, hok]
  split
  · refine ⟨{ b._f._s with fail := true }, ?_, Or.inl rfl⟩
    rw [set_stream_eq _ hb]
    simp [List.getElem?_set_self hlt]
  · refine ⟨{ b._f._s with buf := b._f._s.buf ++ t }, ?_, Or.inr ⟨hgood, rfl⟩⟩
    rw [set_stream_eq _ hb]
    simp [List.getElem?_set_self hlt, hgood]

/-- A flush of a non-empty buffer when writes fail puts the stream in the
error state. -/
theorem stream_flush_nok {w : World} (e : Env) {h : Nat} {b : block}
    (hb : w.heap[h]? = some b) (hgood : b._f._s.fail = false) (hbuf : b._f._s.buf ≠ "")
    (hok : e.flush_ok = false) :
    (stream_flush w e h).heap[h]? =
      some { b with _f := { b._f with _s := { b._f._s with fail := true } } } := by
  have hlt := getElem?_lt hb
  unfold stream_flush
  simp only [hb, hgood, Bool.false_eq_true, if_false, hok, hbuf]
  rw [set_stream_eq _ hb]
  simp [List.getElem?_set_self hlt]

theorem append_newline_ne_empty (u : String) : u ++ "\n" ≠ "" := by
  intro h
  have := congrArg String.data h
  simp at this

/-- One `operator<<` whose writes fail, or on a stream already in the error
state, leaves the stream in the error state. -/
theorem auto_file_shl_fails {w : World} (e : Env) {h : Nat} (x : Value) {b : block}
    (hb : w.heap[h]? = some b)
    (hfail : e.flush_ok = false ∨ b._f._s.fail = true) :
    ∃ s, (auto_file_shl w e h x).heap[h]? = some { b with _f := { b._f with _s := s } } ∧
      s.fail = true := by
  by_cases hf : b._f._s.fail = true
  · rw [auto_file_shl_failed e x hb hf, open_terminal_init_heap]
    exact ⟨b._f._s, hb, hf⟩
  · have hgood : b._f._s.fail = false := by simpa using hf
    have hok : e.flush_ok = false := by
      rcases hfail with h1 | h1
      · exact h1
      · exact absurd h1 hf
    have hb0 : (open_terminal_init w e x.ty).heap[h]? = some b := by
      rw [open_terminal_init_heap]; exact hb
    unfold auto_file_shl
    generalize open_terminal_init w e x.ty = w0 at hb0
    show ∃ s, (stream_flush (stream_insert (stream_insert w0 e h x.text) e h "\n") e h).heap[h]? =
      some { b with _f := { b._f with _s := s } } ∧ s.fail = true
    obtain ⟨s1, hb1, hs1⟩ := stream_insert_nok e x.text hb0 hgood hok
    rcases hs1 with hs1 | ⟨hg1, _⟩
    · rw [stream_insert_failed e "\n" hb1 hs1, stream_flush_failed e hb1 hs1]
      exact ⟨s1, hb1, hs1⟩
    · obtain ⟨s2, hb2, hs2⟩ := stream_insert_nok e "\n" hb1 hg1 hok
      rcases hs2 with hs2 | ⟨hg2, hbuf2⟩
      · rw [stream_flush_failed e hb2 hs2]
        exact ⟨s2, hb2, hs2⟩
      · have hne : s2.buf ≠ "" := by
          rw [hbuf2]
          exact append_newline_ne_empty _
        have hfl := stream_flush_nok e hb2 hg2 hne hok
        exact ⟨{ s2 with fail := true }, hfl, rfl⟩

/-- C7 (as the code has it): a post whose writes fail, or whose stream is
already in the error state, returns normally to its caller and reports
nothing; the channel stays registered and its stream is in the error state
afterwards, so that the same holds for every later post to the channel. -/
theorem write_failure_is_silent (ndebug : Bool) (w w1 : World) (e : Env) (n : String)
    (v : Value) (h : Nat) (b : block)
    (hr : block_of ndebug w e n = (Outcome.returned h, w1)) (hb : w1.heap[h]? = some b)
    (hfail : e.flush_ok = false ∨ b._f._s.fail = true) :
    (post ndebug w e n v).1 = Outcome.returned () ∧
    (post ndebug w e n v).1 ≠ Outcome.raised ∧
    (post ndebug w e n v).2.map.lookup n = some h ∧
    ∃ s, (post ndebug w e n v).2.heap[h]? = some { b with _f := { b._f with _s := s } } ∧
      s.fail = true := by
  rw [post_after_block_of v hr, post_found ndebug e v (block_of_lookup hr)]
  refine ⟨rfl, by simp, ?_, auto_file_shl_fails e v hb hfail⟩
  simp only
  rw [auto_file_shl_map]
  exact block_of_lookup hr

set_option maxRecDepth 100000 in
theorem write_failure_is_silent_witness :
    (post false start ⟨0, true, true, false⟩ "alpha" (Value.int 42)).1 = Outcome.returned () ∧
    (post false start ⟨0, true, true, false⟩ "alpha" (Value.int 42)).2.map.lookup "alpha" =
      some 0 :=
  ⟨(write_failure_is_silent false start (block_of false start ⟨0, true, true, false⟩ "alpha").2
      ⟨0, true, true, false⟩ "alpha" (Value.int 42) 0
      ⟨false, ⟨"/tmp/multitail-100000000/alpha", ⟨false, "", 0⟩, false⟩⟩
      (by decide) (by decide) (Or.inl rfl)).1,
   (write_failure_is_silent false start (block_of false start ⟨0, true, true, false⟩ "alpha").2
      ⟨0, true, true, false⟩ "alpha" (Value.int 42) 0
      ⟨false, ⟨"/tmp/multitail-100000000/alpha", ⟨false, "", 0⟩, false⟩⟩
      (by decide) (by decide) (Or.inl rfl)).2.2.1⟩

/-- C7, counterexample: the flush of the first post fails; that post returns
normally and leaves the stream in the error state, and the next post to the
same channel returns normally as well. -/
theorem write_failure_not_reported :
    (post false start ⟨0, true, true, false⟩ "alpha" (Value.int 42)).1 = Outcome.returned () ∧
    (post false start ⟨0, true, true, false⟩ "alpha" (Value.int 42)).2.heap.map
      (fun b => b._f._s.fail) = [true] ∧
    (posts false start [⟨⟨0, true, true, false⟩, "alpha", Value.int 42⟩,
      ⟨⟨0, true, true, true⟩, "alpha", Value.int 7⟩]).1 = Outcome.returned () := by
  decide

/-! ## Two threads on one channel -/

theorem touches_unlocked {w u : World} {h : Nat} (ht : Touches w u h)
    (hw : ∀ b ∈ w.heap, b._m = false) : ∀ b ∈ u.heap, b._m = false := by
  intro b hb
  obtain ⟨k, hlt, hget⟩ := List.getElem_of_mem hb
  have hk : u.heap[k]? = some b := by rw [List.getElem?_eq_getElem hlt, hget]
  by_cases hkh : k = h
  · subst hkh
    have hlt2 : k < w.heap.length := by rw [← ht.length]; exact hlt
    obtain ⟨s, hs⟩ := ht.same _ (List.getElem?_eq_getElem hlt2)
    rw [hs] at hk
    cases hk
    exact hw (w.heap[k]) (List.getElem_mem hlt2)
  · rw [ht.other k hkh] at hk
    exact hw b (List.getElem?_mem hk)

theorem block_of_unlocked {w : World} (ndebug : Bool) (e : Env) (n : String)
    (hw : ∀ b ∈ w.heap, b._m = false) :
    ∀ b ∈ (block_of ndebug w e n).2.heap, b._m = false := by
  cases hl : w.map.lookup n with
  | some k => rw [block_of_found ndebug e hl]; exact hw
  | none =>
    rw [block_of_absent ndebug e hl]
    have hh : (ofstream_open (make_path w e n).2 e (make_path w e n).1).2.heap = w.heap := by
      simp only [ofstream_open]; rw [make_path_snd]; split <;> rfl
    split
    · rw [hh]; exact hw
    · simp only [hh]
      intro b hb
      rcases List.mem_append.mp hb with hb | hb
      · exact hw b hb
      · simp only [List.mem_singleton] at hb
        rw [hb]

/-- No step of `post` takes the mutex `_m` of a `block`: when no mutex is held
before a step of a thread, none is held after it. -/
theorem step_never_locks (ndebug : Bool) (w : World) (t : Thread)
    (hw : ∀ b ∈ w.heap, b._m = false) : ∀ b ∈ (t.step ndebug w).2.heap, b._m = false := by
  unfold Thread.step
  split
  · have := block_of_unlocked ndebug t.call.env t.call.name hw
    cases hr : block_of ndebug w t.call.env t.call.name with
    | mk o w1 =>
      rw [hr] at this
      cases o <;> exact this
  · simp only [open_terminal_init_heap]
    exact hw
  · exact touches_unlocked (touches_stream_insert _ _ _ _) hw
  · exact touches_unlocked (touches_stream_insert _ _ _ _) hw
  · exact touches_unlocked (touches_stream_flush _ _ _) hw
  · exact hw

/-- A thread that runs its five steps without interruption does what `post`
does. -/
theorem thread_steps_eq_post (ndebug : Bool) (w : World) (c : Call) (h : Nat) (w1 : World)
    (hr : block_of ndebug w c.env c.name = (Outcome.returned h, w1)) :
    (run_threads ndebug w [Thread.of_call c] [0, 0, 0, 0, 0]).2 =
      (post ndebug w c.env c.name c.value).2 := by
  simp [run_threads, Thread.step, Thread.of_call, hr, post, block_shl, auto_file_shl]

/-- C6, the failing input: two threads post 42 and 7 to the channel "0".  The
mutex `_m` is free while the first thread is in the middle of its write, and
under the schedule below both calls complete and the file ends up with the
line "427" followed by an empty line. -/
theorem concurrent_posts_interleave :
    ((run_threads false start
      [Thread.of_call ⟨⟨0, true, true, true⟩, "0", Value.int 42⟩,
       Thread.of_call ⟨⟨0, true, true, true⟩, "0", Value.int 7⟩]
      [0, 1, 0, 1, 0]).2.heap.map block._m) = [false] ∧
    (run_threads false start
      [Thread.of_call ⟨⟨0, true, true, true⟩, "0", Value.int 42⟩,
       Thread.of_call ⟨⟨0, true, true, true⟩, "0", Value.int 7⟩]
      [0, 1, 0, 1, 0, 1, 0, 0, 1, 1]).1 =
      Outcome.returned
        [⟨⟨⟨0, true, true, true⟩, "0", Value.int 42⟩, 5, 0⟩,
         ⟨⟨⟨0, true, true, true⟩, "0", Value.int 7⟩, 5, 0⟩] ∧
    read_file (run_threads false start
      [Thread.of_call ⟨⟨0, true, true, true⟩, "0", Value.int 42⟩,
       Thread.of_call ⟨⟨0, true, true, true⟩, "0", Value.int 7⟩]
      [0, 1, 0, 1, 0, 1, 0, 0, 1, 1]).2 "/tmp/multitail-100000000/0" = some "427\n\n" := by
  decide

/-! ## Process exit -/

/-- The bytes of a line whose flush failed stay in the buffer and are written
when the stream is destroyed at process exit, if the file can be written
then. -/
theorem teardown_writes_pending :
    read_file (posts false start [⟨⟨0, true, true, false⟩, "alpha", Value.int 42⟩]).2
      "/tmp/multitail-100000000/alpha" = some "" ∧
    read_file (teardown (posts false start [⟨⟨0, true, true, false⟩, "alpha", Value.int 42⟩]).2
      ⟨0, true, true, true⟩) "/tmp/multitail-100000000/alpha" = some "42\n" := by
  decide

end multitail
